import Mathlib

/-!
Verification development for the attachment-citation extractors of the
aut-scripts repository (cover-sheet application).

The TypeScript sources are shallowly embedded below:
* namespace `EB1`  — src/cover-sheet/lib/eb1-extractor.ts   (dialect A)
* namespace `EB2`  — src/cover-sheet/lib/eb2-extractor.ts   (dialect B, imported by the route)
* namespace `EB2L` — src/cover sheet/lib/eb2-extractor.ts   (dialect B, legacy variant with
                     Roman-numeral section ordering)
* namespace `Route` — src/cover-sheet/app/api/extract/route.ts

Strings are modelled as `List Char`; each JavaScript regular expression is
implemented by a dedicated matching function whose doc comment quotes the
pattern it embeds.  Scanning loops that are not structurally recursive use an
explicit fuel argument (always called with the string length plus one, enough
for every run since each step consumes at least one character).
-/

set_option maxHeartbeats 1000000

namespace JS

/-- Characters of the regex class \s that can occur in the app's inputs
(space, tab, newline, carriage return, vertical tab, form feed). -/
def isSpace (c : Char) : Bool :=
  c = ' ' || c = '\t' || c = '\n' || c = '\r' || c = Char.ofNat 11 || c = Char.ofNat 12

def isDigit (c : Char) : Bool := '0' ≤ c && c ≤ '9'

/-- Word characters for the regex boundary \b : [A-Za-z0-9_]. -/
def isWordChar (c : Char) : Bool :=
  ('A' ≤ c && c ≤ 'Z') || ('a' ≤ c && c ≤ 'z') || isDigit c || c = '_'

def isUpperAZ (c : Char) : Bool := 'A' ≤ c && c ≤ 'Z'

def toUpperChar (c : Char) : Char :=
  if 'a' ≤ c && c ≤ 'z' then Char.ofNat (c.toNat - 32) else c

def toLowerChar (c : Char) : Char :=
  if 'A' ≤ c && c ≤ 'Z' then Char.ofNat (c.toNat + 32) else c

/-- String.prototype.toUpperCase (ASCII fragment). -/
def upper (s : List Char) : List Char := s.map toUpperChar

/-- Case-insensitive character comparison (regex flag i, ASCII fragment). -/
def eqCI (a b : Char) : Bool := toLowerChar a = toLowerChar b

/-- String.prototype.trim (left side). -/
def trimLeft (s : List Char) : List Char := s.dropWhile isSpace

/-- String.prototype.trim (right side). -/
def trimRight (s : List Char) : List Char := (s.reverse.dropWhile isSpace).reverse

/-- String.prototype.trim. -/
def trim (s : List Char) : List Char := trimRight (trimLeft s)

/-- replace(/\s+/g, ' '): collapse every whitespace run to a single space
(the flag records whether we are inside a run whose space was already
emitted). -/
def collapseWsAux (inRun : Bool) : List Char → List Char
  | [] => []
  | c :: rest =>
    if isSpace c then
      if inRun then collapseWsAux true rest else ' ' :: collapseWsAux true rest
    else c :: collapseWsAux false rest

def collapseWs (s : List Char) : List Char := collapseWsAux false s

/-- Case-sensitive literal prefix test. -/
def startsWith : List Char → List Char → Bool
  | [], _ => true
  | _ :: _, [] => false
  | p :: ps, c :: cs => p = c && startsWith ps cs

/-- Case-insensitive literal prefix test. -/
def startsWithCI : List Char → List Char → Bool
  | [], _ => true
  | _ :: _, [] => false
  | p :: ps, c :: cs => eqCI p c && startsWithCI ps cs

/-- Case-sensitive substring test. -/
def containsSub (pat : List Char) : List Char → Bool
  | [] => startsWith pat []
  | c :: cs => startsWith pat (c :: cs) || containsSub pat cs

/-- Case-insensitive substring test (a regex of a bare literal with flag i). -/
def containsCI (pat : List Char) : List Char → Bool
  | [] => startsWithCI pat []
  | c :: cs => startsWithCI pat (c :: cs) || containsCI pat cs

/-- Strip a case-insensitive literal, returning the rest of the string. -/
def stripCI : List Char → List Char → Option (List Char)
  | [], s => some s
  | _ :: _, [] => none
  | p :: ps, c :: cs => if eqCI p c then stripCI ps cs else none

/-- Strip a case-sensitive literal, returning the rest of the string. -/
def stripCS : List Char → List Char → Option (List Char)
  | [], s => some s
  | _ :: _, [] => none
  | p :: ps, c :: cs => if p = c then stripCS ps cs else none

/-- Find the first case-insensitive occurrence of a literal; returns the text
before it and the text after it. -/
def findCI (pat : List Char) : List Char → Option (List Char × List Char)
  | [] => (stripCI pat []).map (fun r => ([], r))
  | c :: cs =>
    match stripCI pat (c :: cs) with
    | some r => some ([], r)
    | none => (findCI pat cs).map (fun p => (c :: p.1, p.2))

def takeDigits (s : List Char) : List Char × List Char :=
  (s.takeWhile isDigit, s.dropWhile isDigit)

/-- parseInt on a captured \d+ group. -/
def digitsToNat (ds : List Char) : Nat :=
  ds.foldl (fun n c => n * 10 + (c.toNat - 48)) 0

def endsWithChar (c : Char) (s : List Char) : Bool :=
  match s.reverse with
  | [] => false
  | d :: _ => d = c

/-- String.prototype.endsWith for a literal suffix. -/
def endsWithLit (suf s : List Char) : Bool := startsWith suf.reverse s.reverse

end JS

/-- interface Attachment (shared by all three extractor modules). -/
structure Attachment where
  num : Nat
  desc : String
deriving DecidableEq, Repr

/-- interface GroupedAttachments: a JavaScript object used as an ordered map
from section name to attachment list.  The section names are never
integer-like, so property order is insertion order; we model the object as an
association list in insertion order with unique keys. -/
abbrev GroupedAttachments := List (String × List Attachment)

namespace JS

/-- Object property read obj[k]. -/
def alookup {κ α : Type} [DecidableEq κ] (k : κ) : List (κ × α) → Option α
  | [] => none
  | (k2, v) :: rest => if k2 = k then some v else alookup k rest

/-- Object property write obj[k] = v: updates in place, appends a new key last
(JavaScript insertion order). -/
def aset {κ α : Type} [DecidableEq κ] (k : κ) (v : α) : List (κ × α) → List (κ × α)
  | [] => [(k, v)]
  | (k2, v2) :: rest => if k2 = k then (k2, v) :: rest else (k2, v2) :: aset k v rest

/-- delete obj[k]. -/
def adelete {κ α : Type} [DecidableEq κ] (k : κ) : List (κ × α) → List (κ × α)
  | [] => []
  | (k2, v2) :: rest => if k2 = k then rest else (k2, v2) :: adelete k rest

def akeys {κ α : Type} (l : List (κ × α)) : List κ := l.map Prod.fst

end JS

/-- Comparator (a, b) => a.num - b.num used by every `.sort` call on
attachment arrays.  Array.prototype.sort is stable, which insertion sort
models. -/
def byNum (a b : Attachment) : Prop := a.num ≤ b.num

instance : DecidableRel byNum := fun a b => inferInstanceAs (Decidable (a.num ≤ b.num))

instance : IsTotal Attachment byNum := ⟨fun a b => Nat.le_total a.num b.num⟩

instance : IsTrans Attachment byNum := ⟨fun _ _ _ h1 h2 => Nat.le_trans h1 h2⟩

/-- arr.sort((a, b) => a.num - b.num). -/
def sortByNum (l : List Attachment) : List Attachment := l.insertionSort byNum

/-- Iteration order of for..in over an object whose keys are the (integer-like)
attachment numbers: ascending numeric key order. -/
def entriesAsc {α : Type} (l : List (Nat × α)) : List (Nat × α) :=
  l.insertionSort (fun a b => a.1 ≤ b.1)

namespace Rx

open JS

/-- Dash characters of the eb1 class DASH_CHARS:
hyphen, en dash, em dash, minus sign, hyphen U+2010, non-breaking hyphen,
figure dash, horizontal bar. -/
def dashEB1 (c : Char) : Bool :=
  c = '-' || c = '–' || c = '—' || c = '−' || c = '‐' || c = '‑' || c = '‒' || c = '―'

/-- Separator class [:DASH_CHARS] of eb1. -/
def sepEB1 (c : Char) : Bool := c = ':' || dashEB1 c

/-- Separator class [:|DASH_CHARS] of eb1 (with the literal pipe). -/
def sepEB1pipe (c : Char) : Bool := c = ':' || c = '|' || dashEB1 c

/-- Dash class [-–—] of eb2. -/
def dashEB2 (c : Char) : Bool := c = '-' || c = '–' || c = '—'

/-- Separator class [:\-–—] of eb2. -/
def sepEB2 (c : Char) : Bool := c = ':' || dashEB2 c

def nonSpace (c : Char) : Bool := !isSpace c

/-- URL body class [^\s)] of the eb1 see-attachment pattern. -/
def nonSpaceParen (c : Char) : Bool := !isSpace c && c ≠ ')'

/-- The trailing pattern \s*\.?\s*$ . -/
def tailDotWs (s : List Char) : Bool :=
  match s.dropWhile isSpace with
  | [] => true
  | '.' :: rest => (rest.dropWhile isSpace).isEmpty
  | _ => false

/-- The trailing pattern \s*$ . -/
def tailAllWs (s : List Char) : Bool := (s.dropWhile isSpace).isEmpty

/-- Strip a literal, case-insensitively when ci is set, returning the actual
consumed characters (regex captures preserve input case) and the rest. -/
def stripLitCap (ci : Bool) (pat s : List Char) : Option (List Char × List Char) :=
  match (if ci then stripCI pat s else stripCS pat s) with
  | some r => some (s.take pat.length, r)
  | none => none

/-- The scheme part https?:\/\/ with the greedy optional s.  Trying the two
literals in order is equivalent: if the s branch consumes, the :// must follow
it, and the shorter branch cannot be rescued by backtracking. -/
def urlScheme (ci : Bool) (s : List Char) : Option (List Char × List Char) :=
  match stripLitCap ci ("https://".data) s with
  | some r => some r
  | none => stripLitCap ci ("http://".data) s

/-- Greedy body run with backtracking: the largest nonempty prefix of the class
run whose leftover (run remainder plus following text) the continuation
accepts.  The counter starts at the run length. -/
def urlBodySplit (tailOk : List Char → Bool) (run t : List Char) : Nat → Option (List Char × List Char)
  | 0 => none
  | j + 1 =>
    let rest := run.drop (j + 1) ++ t
    if tailOk rest then some (run.take (j + 1), rest) else urlBodySplit tailOk run t j

/-- A URL group (https?:\/\/CLS+) at the start of the string, where the body
class CLS+ is greedy but must leave a remainder accepted by tailOk.
Returns (captured url, remainder after the url). -/
def urlCapture (ci : Bool) (cls : Char → Bool) (tailOk : List Char → Bool) (s : List Char) :
    Option (List Char × List Char) :=
  match urlScheme ci s with
  | none => none
  | some (scheme, r) =>
    let run := r.takeWhile cls
    let t := r.dropWhile cls
    match urlBodySplit tailOk run t run.length with
    | some (body, rest) => some (scheme ++ body, rest)
    | none => none

/-- How the "available at" patterns begin. -/
inductive CommaMode | req | opt | no
deriving DecidableEq

/-- Shape of one of the source's "available at URL" subpatterns:
COMMA \s* available \s+ at WSAT [sep]? \s* (https?:\/\/CLS+)
where COMMA is one of "," / ",?" / absent and WSAT is \s+ or \s* . -/
structure AvailPat where
  comma : CommaMode
  wsPlusAfterAt : Bool
  sep : Char → Bool
  urlCls : Char → Bool

/-- Match an AvailPat at the start of the string; the URL body must leave a
remainder accepted by tailOk.  Returns (captured url, remainder after url). -/
def availAt (P : AvailPat) (tailOk : List Char → Bool) (s : List Char) :
    Option (List Char × List Char) :=
  let s1? : Option (List Char) :=
    match P.comma, s with
    | CommaMode.req, ',' :: r => some r
    | CommaMode.req, _ => none
    | CommaMode.opt, ',' :: r => some r
    | CommaMode.opt, _ => some s
    | CommaMode.no, _ => some s
  match s1? with
  | none => none
  | some s1 =>
    match stripCI ("available".data) (s1.dropWhile isSpace) with
    | none => none
    | some s3 =>
      match s3 with
      | [] => none
      | c :: _ =>
        if isSpace c then
          match stripCI ("at".data) (s3.dropWhile isSpace) with
          | none => none
          | some s5 =>
            let s6? : Option (List Char) :=
              if P.wsPlusAfterAt then
                match s5 with
                | d :: _ => if isSpace d then some (s5.dropWhile isSpace) else none
                | [] => none
              else some (s5.dropWhile isSpace)
            match s6? with
            | none => none
            | some s6 =>
              let s7 :=
                match s6 with
                | d :: r => if P.sep d then r else s6
                | [] => s6
              urlCapture true P.urlCls tailOk (s7.dropWhile isSpace)
        else none

/-- Leftmost-match driver: try a matcher at every position, left to right;
returns the text before the match and the matcher's result. -/
def scanPos {α : Type} (matchAt : List Char → Option α) : List Char → Option (List Char × α)
  | [] => (matchAt []).map (fun a => (([] : List Char), a))
  | c :: cs =>
    match matchAt (c :: cs) with
    | some a => some (([] : List Char), a)
    | none => (scanPos matchAt cs).map (fun p => (c :: p.1, p.2))

/-- Lazy group (.+?) followed by a continuation: the shortest nonempty prefix
whose remaining suffix the continuation accepts. -/
def lazyDotAux {α : Type} (cont : List Char → Option α) (acc : List Char) :
    List Char → Option (List Char × α)
  | [] => none
  | c :: rest =>
    match cont rest with
    | some a => some (acc ++ [c], a)
    | none => lazyDotAux cont (acc ++ [c]) rest

def lazyDot {α : Type} (cont : List Char → Option α) (s : List Char) :
    Option (List Char × α) :=
  lazyDotAux cont [] s

/-- Greedy \s* with backtracking before a group: consume as much leading
whitespace as possible, retrying with less on failure of the rest. -/
def wsBacktrack {α : Type} (cont : List Char → Option α) : List Char → Option α
  | [] => cont []
  | c :: rest =>
    if isSpace c then
      match wsBacktrack cont rest with
      | some a => some a
      | none => cont (c :: rest)
    else cont (c :: rest)

end Rx

namespace Rx

open JS

/-- ITEM_ENUM_RE:
eb1:  ^\s*\((\d+)\)\s*(.+?)(?:,\s*available\s+at\s*[:DASH]?\s*(https?:\/\/\S+))?\s*\.?\s*$  (i)
eb2:  ^\s*\((\d+)\)\s*(.+?)(?:,?\s*available\s+at\s*[:\-–—]?\s*(https?:\/\/\S+))?\s*\.?\s*$  (i)
The two dialects differ in the comma mode and separator class, passed in as P.
Returns (num, desc, url); url is [] when the optional group did not match. -/
def itemEnumMatch (P : AvailPat) (s : List Char) : Option (Nat × List Char × List Char) :=
  let t := s.dropWhile isSpace
  match t with
  | '(' :: r =>
    let ds := r.takeWhile isDigit
    let r2 := r.dropWhile isDigit
    if ds.isEmpty then none
    else
      match r2 with
      | ')' :: r3 =>
        match wsBacktrack (lazyDot (fun rest =>
          match availAt P tailDotWs rest with
          | some (url, _) => some url
          | none => if tailDotWs rest then some ([] : List Char) else none)) r3 with
        | some (desc, url) => some (digitsToNat ds, desc, url)
        | none => none
      | _ => none
  | _ => none

/-- eb1 attachmentLineMatch (line 143):
^Attachment\s+(\d+)\s*[DASH]\s*(.+?)(?:,\s*available\s+at\s*[:|DASH]?\s*(https?:\/\/\S+))?\s*\.?\s*$  (i) -/
def attachmentLineMatch (s : List Char) : Option (Nat × List Char × List Char) :=
  match stripCI ("attachment".data) s with
  | none => none
  | some r =>
    match r with
    | [] => none
    | c :: _ =>
      if isSpace c then
        let r1 := r.dropWhile isSpace
        let ds := r1.takeWhile isDigit
        let r2 := r1.dropWhile isDigit
        if ds.isEmpty then none
        else
          match r2.dropWhile isSpace with
          | d :: r3 =>
            if dashEB1 d then
              match wsBacktrack (lazyDot (fun rest =>
                match availAt ⟨CommaMode.req, false, sepEB1pipe, nonSpace⟩ tailDotWs rest with
                | some (url, _) => some url
                | none => if tailDotWs rest then some ([] : List Char) else none)) r3 with
              | some (desc, url) => some (digitsToNat ds, desc, url)
              | none => none
            else none
          | [] => none
      else none

/-- Variant data of SEE_ATTACHMENT_RE (dash class, separator class, URL body
class — eb1 uses [^\s)]+, eb2 uses \S+). -/
structure SeePat where
  dash : Char → Bool
  sep : Char → Bool
  urlCls : Char → Bool

/-- \s*\) — the closing parenthesis of the see-attachment pattern; returns the
text after it. -/
def closeParen (s : List Char) : Option (List Char) :=
  match s.dropWhile isSpace with
  | ')' :: rest => some rest
  | _ => none

/-- SEE_ATTACHMENT_RE match at the start of the string:
\(See\s+Attachment\s+(\d+)\s*[DASH]\s*(.+?)(?:,?\s*available\s+at\s*[SEP]?\s*(URL))?\s*\)  (gi)
Returns ((num, desc, url), text after the whole match). -/
def seeMatchAt (V : SeePat) (s : List Char) : Option ((Nat × List Char × List Char) × List Char) :=
  match s with
  | '(' :: r0 =>
    match stripCI ("see".data) r0 with
    | none => none
    | some r =>
      match r with
      | [] => none
      | c :: _ =>
        if isSpace c then
          match stripCI ("attachment".data) (r.dropWhile isSpace) with
          | none => none
          | some r1 =>
            match r1 with
            | [] => none
            | c2 :: _ =>
              if isSpace c2 then
                let r2 := r1.dropWhile isSpace
                let ds := r2.takeWhile isDigit
                let r3 := r2.dropWhile isDigit
                if ds.isEmpty then none
                else
                  match r3.dropWhile isSpace with
                  | d :: r4 =>
                    if V.dash d then
                      match wsBacktrack (lazyDot (fun rest =>
                        match availAt ⟨CommaMode.opt, false, V.sep, V.urlCls⟩
                            (fun rem => (closeParen rem).isSome) rest with
                        | some (url, rem) =>
                          (closeParen rem).map (fun after => (url, after))
                        | none =>
                          (closeParen rest).map (fun after => (([] : List Char), after)))) r4 with
                      | some (desc, url, after) => some ((digitsToNat ds, desc, url), after)
                      | none => none
                    else none
                  | [] => none
              else none
        else none
  | _ => none

/-- matchAll over SEE_ATTACHMENT_RE: successive leftmost matches, each resumed
after the previous match; every element carries the text that follows its
match (the source's trimmed.slice(m.index + m[0].length)). -/
def seeMatchAllAux (V : SeePat) : Nat → List Char → List (Nat × List Char × List Char × List Char)
  | 0, _ => []
  | fuel + 1, s =>
    match scanPos (seeMatchAt V) s with
    | none => []
    | some (_, ((num, desc, url), after)) =>
      (num, desc, url, after) :: seeMatchAllAux V fuel after

def seeMatchAll (V : SeePat) (s : List Char) : List (Nat × List Char × List Char × List Char) :=
  seeMatchAllAux V (s.length + 1) s

/-- Shape of the embedded-attachment patterns used with String.split:
COMMA \s* Attachment \s+ (\d+) \s* [DASH] DASHOPT \s*   (i)
eb1 enum branch: comma required, dash optional;  eb1 see branch: comma
optional, dash optional;  eb2: comma required, dash required. -/
structure EmbPat where
  commaOpt : Bool
  dashOpt : Bool
  dash : Char → Bool

/-- One embedded-attachment separator match at the start of the string;
returns (captured digit group, text after the separator). -/
def embMatchAt (E : EmbPat) (s : List Char) : Option (List Char × List Char) :=
  let s1? : Option (List Char) :=
    match s with
    | ',' :: r => some r
    | _ => if E.commaOpt then some s else none
  match s1? with
  | none => none
  | some s1 =>
    match stripCI ("attachment".data) (s1.dropWhile isSpace) with
    | none => none
    | some r =>
      match r with
      | [] => none
      | c :: _ =>
        if isSpace c then
          let r1 := r.dropWhile isSpace
          let ds := r1.takeWhile isDigit
          let r2 := r1.dropWhile isDigit
          if ds.isEmpty then none
          else
            let r3 := r2.dropWhile isSpace
            match r3 with
            | d :: r4 =>
              if E.dash d then some (ds, r4.dropWhile isSpace)
              else if E.dashOpt then some (ds, r3) else none
            | [] => if E.dashOpt then some (ds, ([] : List Char)) else none
        else none

/-- String.prototype.split on an embedded-attachment pattern whose single
capturing group (the digits) is interleaved into the result, as JavaScript
split does with capturing groups:
"A, Attachment 48 – B".split(re) = ["A", "48", "B"]. -/
def splitEmbeddedAux (E : EmbPat) : Nat → List Char → List (List Char)
  | 0, s => [s]
  | fuel + 1, s =>
    match scanPos (embMatchAt E) s with
    | none => [s]
    | some (before, (ds, after)) => before :: ds :: splitEmbeddedAux E fuel after

def splitEmbedded (E : EmbPat) (s : List Char) : List (List Char) :=
  splitEmbeddedAux E (s.length + 1) s

/-- Secondary URL scan /available\s+at\s+[SEP]?\s*(https?:\/\/\S+)/i :
first occurrence anywhere in the text, URL greedy and unconstrained. -/
def availUrlScan (sep : Char → Bool) (s : List Char) : Option (List Char) :=
  (scanPos (availAt ⟨CommaMode.no, true, sep, nonSpace⟩ (fun _ => true)) s).map
    (fun p => p.2.1)

/-- One "available at URL" clause /,?\s*available\s+at\s*[SEP]?\s*(https?:\/\/\S+)/i,
located anywhere; returns (captured url, string with the first match removed),
modelling the paired .match / .replace(..., '') calls of the source. -/
def availUrlExtract (sep : Char → Bool) (s : List Char) : Option (List Char × List Char) :=
  (scanPos (availAt ⟨CommaMode.opt, false, sep, nonSpace⟩ (fun _ => true)) s).map
    (fun p => (p.2.1, p.1 ++ p.2.2))

/-- End-anchored variant /,?\s*available\s+at\s*[SEP]?\s*(https?:\/\/\S+)\s*$/i
(eb1 enum main description); removing the match leaves just the prefix. -/
def availUrlExtractEnd (sep : Char → Bool) (s : List Char) : Option (List Char × List Char) :=
  (scanPos (availAt ⟨CommaMode.opt, false, sep, nonSpace⟩ tailAllWs) s).map
    (fun p => (p.2.1, p.1))

/-- /https?:\/\/\S+$/ (no flags, case-sensitive): the text ends in a URL. -/
def endsUrlTest (s : List Char) : Bool :=
  (scanPos (urlCapture false nonSpace (fun rest => rest.isEmpty)) s).isSome

/-- /available\s+at/i used by the fullDesc checks. -/
def hasAvailableAt (s : List Char) : Bool :=
  (scanPos (fun r =>
    match stripCI ("available".data) r with
    | none => none
    | some r1 =>
      match r1 with
      | [] => none
      | c :: _ =>
        if isSpace c then stripCI ("at".data) (r1.dropWhile isSpace) else none) s).isSome

end Rx

namespace Rx

open JS

/-- Plain global replace: leftmost matches, resuming after each match (the
source patterns here never match the empty string). -/
def gsubPlain (matchAt : List Char → Option (List Char)) (rep : List Char) :
    Nat → List Char → List Char
  | 0, s => s
  | _, [] => []
  | fuel + 1, c :: rest =>
    match matchAt (c :: rest) with
    | some after => rep ++ gsubPlain matchAt rep fuel after
    | none => c :: gsubPlain matchAt rep fuel rest

/-- Global replace for a pattern that starts with a word boundary \b and whose
match always ends in a word character: a match may only begin where the
previous character is not a word character; matchAt itself checks the closing
boundary. -/
def gsubBnd (matchAt : List Char → Option (List Char)) (rep : List Char) :
    Nat → Bool → List Char → List Char
  | 0, _, s => s
  | _, _, [] => []
  | fuel + 1, prevW, c :: rest =>
    if prevW then c :: gsubBnd matchAt rep fuel (isWordChar c) rest
    else
      match matchAt (c :: rest) with
      | some after => rep ++ gsubBnd matchAt rep fuel true after
      | none => c :: gsubBnd matchAt rep fuel (isWordChar c) rest

/-- Match a \s+-separated word phrase (case-sensitive; used on uppercased
headings), returning the rest; the caller checks the closing boundary. -/
def matchPhrase : List (List Char) → List Char → Option (List Char)
  | [], s => some s
  | [w], s => stripCS w s
  | w :: ws, s =>
    match stripCS w s with
    | none => none
    | some r =>
      match r with
      | [] => none
      | c :: _ =>
        if isSpace c then matchPhrase ws (r.dropWhile isSpace) else none

/-- matchAt for a \b-delimited phrase: the phrase body plus the closing \b. -/
def phraseAt (ws : List (List Char)) (s : List Char) : Option (List Char) :=
  match matchPhrase ws s with
  | none => none
  | some r =>
    match r with
    | [] => some ([] : List Char)
    | c :: _ => if isWordChar c then none else some r

/-- One \bWORDS\b → rep global replacement (…the pronoun-normalisation steps). -/
def replacePhrase (ws : List (List Char)) (rep : List Char) (s : List Char) : List Char :=
  gsubBnd (phraseAt ws) rep (s.length + 1) false s

/-- replace(/(^|[^A-Z])I([^A-Z]|$)/g, '$1PETITIONER$2'): the standalone
pronoun I.  Both context characters are part of the match, so a consumed
closing context cannot serve as the opening context of the next match. -/
def replIAux : Nat → Bool → List Char → List Char
  | 0, _, s => s
  | _, _, [] => []
  | fuel + 1, atStart, s =>
    match s with
    | 'I' :: rest =>
      if atStart && (match rest with | [] => true | d :: _ => !isUpperAZ d) then
        match rest with
        | [] => ("PETITIONER".data)
        | d :: rest2 => ("PETITIONER".data) ++ d :: replIAux fuel false rest2
      else
        match s with
        | a :: rest1 => a :: replIAux fuel false rest1
        | [] => []
    | a :: 'I' :: rest2 =>
      if !isUpperAZ a && (match rest2 with | [] => true | d :: _ => !isUpperAZ d) then
        match rest2 with
        | [] => a :: ("PETITIONER".data)
        | d :: rest3 => a :: ("PETITIONER".data) ++ d :: replIAux fuel false rest3
      else a :: replIAux fuel false ('I' :: rest2)
    | a :: rest1 => a :: replIAux fuel false rest1
    | [] => []

def replaceStandaloneI (s : List Char) : List Char := replIAux (s.length + 1) true s

/-- replace(/,$/, ''). -/
def stripFinalComma (s : List Char) : List Char :=
  match s.reverse with
  | ',' :: r => r.reverse
  | _ => s

/-- replace(/,\s*$/, ''). -/
def stripCommaWsEnd (s : List Char) : List Char :=
  let r := s.reverse.dropWhile isSpace
  match r with
  | ',' :: r2 => r2.reverse
  | _ => s

/-- replace(/\.\s*$/, ''). -/
def stripDotWsEnd (s : List Char) : List Char :=
  let r := s.reverse.dropWhile isSpace
  match r with
  | '.' :: r2 => r2.reverse
  | _ => s

/-- replace(/[DASH]\s*$/, '') for a dash class. -/
def stripDashWsEnd (dash : Char → Bool) (s : List Char) : List Char :=
  let r := s.reverse.dropWhile isSpace
  match r with
  | d :: r2 => if dash d then r2.reverse else s
  | [] => s

/-- Match-at for the page-reference pattern
/,?\s*(?:pages?|pp\.?)\s*[\d\-–—,\s]+/gi : since \s is inside the class, the
tail \s*[...]+ consumes exactly the maximal class run, which must be
nonempty. -/
def pageRefAt (s : List Char) : Option (List Char) :=
  let s1 :=
    match s with
    | ',' :: r => r
    | _ => s
  let s2 := s1.dropWhile isSpace
  let key? : Option (List Char) :=
    match stripCI ("page".data) s2 with
    | some r =>
      some (match r with
            | c :: rest => if eqCI c 's' then rest else r
            | [] => r)
    | none =>
      match stripCI ("pp".data) s2 with
      | some r =>
        some (match r with
              | c :: rest => if c = '.' then rest else r
              | [] => r)
      | none => none
  match key? with
  | none => none
  | some r2 =>
    let cls : Char → Bool := fun c =>
      isDigit c || c = '-' || c = '–' || c = '—' || c = ',' || isSpace c
    if (r2.takeWhile cls).isEmpty then none else some (r2.dropWhile cls)

/-- Cut a page-reference pattern out everywhere (cleanDesc of both dialects). -/
def removePageRefs (s : List Char) : List Char :=
  gsubPlain pageRefAt ([] : List Char) (s.length + 1) s

/-- Match-at for /\bis,\s*available\s+at\b/gi (its closing boundary included). -/
def isCommaAvailAt (s : List Char) : Option (List Char) :=
  match stripCI ("is,".data) s with
  | none => none
  | some r =>
    match stripCI ("available".data) (r.dropWhile isSpace) with
    | none => none
    | some r2 =>
      match r2 with
      | [] => none
      | c :: _ =>
        if isSpace c then
          match stripCI ("at".data) (r2.dropWhile isSpace) with
          | none => none
          | some r3 =>
            match r3 with
            | [] => some ([] : List Char)
            | d :: _ => if isWordChar d then none else some r3
        else none

/-- Match-at for the eb1 normaliser /,?\s*available\s+at\s*[:|DASH]?\s*/gi . -/
def availNormAt (s : List Char) : Option (List Char) :=
  let s1 :=
    match s with
    | ',' :: r => r
    | _ => s
  match stripCI ("available".data) (s1.dropWhile isSpace) with
  | none => none
  | some r =>
    match r with
    | [] => none
    | c :: _ =>
      if isSpace c then
        match stripCI ("at".data) (r.dropWhile isSpace) with
        | none => none
        | some r2 =>
          let r3 := r2.dropWhile isSpace
          let r4 :=
            match r3 with
            | d :: rest => if sepEB1pipe d then rest else r3
            | [] => r3
          some (r4.dropWhile isSpace)
      else none

/-- replace(/\s*,\s*-\s*$/, ''). -/
def stripCommaDashEnd (s : List Char) : List Char :=
  let r := s.reverse.dropWhile isSpace
  match r with
  | '-' :: r2 =>
    let r3 := r2.dropWhile isSpace
    match r3 with
    | ',' :: r4 => (r4.dropWhile isSpace).reverse
    | _ => s
  | _ => s

/-- replace(/[\s.,;]+$/, ''). -/
def stripTrailPunct (s : List Char) : List Char :=
  (s.reverse.dropWhile (fun c => isSpace c || c = '.' || c = ',' || c = ';')).reverse

/-- Replace-once of /(available\s+at)\s*[SEP]?\s*$/i by "$1 URL": returns the
length of the captured group when the pattern matches at this position. -/
def availAtEndAt (sep : Char → Bool) (s : List Char) : Option Nat :=
  match stripCI ("available".data) s with
  | none => none
  | some r =>
    match r with
    | [] => none
    | c :: _ =>
      if isSpace c then
        match stripCI ("at".data) (r.dropWhile isSpace) with
        | none => none
        | some r2 =>
          let r3 := r2.dropWhile isSpace
          let r4 :=
            match r3 with
            | d :: rest => if sep d then rest else r3
            | [] => r3
          if (r4.dropWhile isSpace).isEmpty then some (s.length - r2.length) else none
      else none

/-- fullDesc.replace(/(available\s+at)\s*[SEP]?\s*$/i, '$1 ' + url). -/
def appendUrlAfterAvailAt (sep : Char → Bool) (url s : List Char) : List Char :=
  match scanPos (availAtEndAt sep) s with
  | some (before, g1len) => before ++ (s.drop before.length).take g1len ++ ' ' :: url
  | none => s

/-- text.split(/\n+/). -/
def splitNl : Nat → List Char → List (List Char)
  | 0, s => [s]
  | fuel + 1, s =>
    let piece := s.takeWhile (fun c => c ≠ '\n')
    let rest := s.dropWhile (fun c => c ≠ '\n')
    match rest with
    | [] => [piece]
    | _ :: _ => piece :: splitNl fuel (rest.dropWhile (fun c => c = '\n'))

/-- text.split(/\n+/).filter(p => p.trim()) — the paragraph segmenter shared
by the extractors. -/
def paragraphs (text : List Char) : List (List Char) :=
  (splitNl (text.length + 1) text).filter (fun p => !(trim p).isEmpty)

end Rx

namespace EB1

open JS Rx

/-- The apostrophe character used in the PETITIONER'S replacements. -/
def apos : Char := Char.ofNat 39

/-- SECTION_LINE_RE:
^\s*(?:EVIDENCE\b.*|DOCUMENTATION TO ESTABLISH\b.*|SUSTAINED NATIONAL OR INTERNATIONAL ACCLAIM\b.*)$  (i) -/
def kwTest (kw t : List Char) : Bool :=
  match stripCI kw t with
  | some r =>
    match r with
    | [] => true
    | c :: _ => !isWordChar c
  | none => false

def sectionLineTest (s : List Char) : Bool :=
  let t := s.dropWhile isSpace
  kwTest ("EVIDENCE".data) t ||
  kwTest ("DOCUMENTATION TO ESTABLISH".data) t ||
  kwTest ("SUSTAINED NATIONAL OR INTERNATIONAL ACCLAIM".data) t

/-- TOC_LINE_RE: \(Pages?\s*[\d\-–—,\s]+\)\s*[;.]?\s*$  (i) -/
def tocMatchAt (s : List Char) : Option Unit :=
  match s with
  | '(' :: r =>
    match stripCI ("page".data) r with
    | none => none
    | some r1 =>
      let r2 :=
        match r1 with
        | c :: rest => if eqCI c 's' then rest else r1
        | [] => r1
      let cls : Char → Bool := fun c =>
        isDigit c || c = '-' || c = '–' || c = '—' || c = ',' || isSpace c
      if (r2.takeWhile cls).isEmpty then none
      else
        match r2.dropWhile cls with
        | ')' :: r3 =>
          let r4 := r3.dropWhile isSpace
          let r5 :=
            match r4 with
            | c :: rest => if c = ';' || c = '.' then rest else r4
            | [] => r4
          if (r5.dropWhile isSpace).isEmpty then some () else none
        | _ => none
  | _ => none

def tocLineTest (s : List Char) : Bool := (scanPos tocMatchAt s).isSome

/-- /CONCLUSION/i.test . -/
def hasConclusion (s : List Char) : Bool := containsCI ("CONCLUSION".data) s

/-- The header acceptance condition of line 115:
SECTION_LINE_RE.test(trimmed) && !/CONCLUSION/i.test(trimmed) && !TOC_LINE_RE.test(trimmed). -/
def isHeader (s : List Char) : Bool :=
  sectionLineTest s && !hasConclusion s && !tocLineTest s

/-- Match-at for the title cleanup /\s*\(PAGES?\s+[\d\-–—,\s]+\)/gi.  The class
contains \s, so \s+[...]+ consumes the maximal class run, which must start
with whitespace and have length at least two. -/
def pagesParenAt (s : List Char) : Option (List Char) :=
  let core := s.dropWhile isSpace
  match core with
  | '(' :: r =>
    match stripCI ("page".data) r with
    | none => none
    | some r1 =>
      let r2 :=
        match r1 with
        | c :: rest => if eqCI c 's' then rest else r1
        | [] => r1
      match r2 with
      | c :: _ =>
        if isSpace c then
          let cls : Char → Bool := fun d =>
            isDigit d || d = '-' || d = '–' || d = '—' || d = ',' || isSpace d
          if (r2.takeWhile cls).length ≥ 2 then
            match r2.dropWhile cls with
            | ')' :: r3 => some r3
            | _ => none
          else none
        else none
      | [] => none
  | _ => none

/-- replace(/[;.]+$/, ''). -/
def stripSemiDotEnd (s : List Char) : List Char :=
  (s.reverse.dropWhile (fun c => c = ';' || c = '.')).reverse

/-- normalizeHeadingPronouns of eb1-extractor.ts (operates on uppercase
headings; the replacement order follows the source). -/
def normalizeHeadingPronouns (titleUpper : List Char) : List Char :=
  let t := titleUpper
  let t := replacePhrase [("ABOUT".data), ("ME".data)] ("ABOUT PETITIONER".data) t
  let t := replacePhrase [("THAT".data), ("MY".data), ("COMMAND".data)]
    ("THAT PETITIONER COMMANDS".data) t
  let t := replacePhrase [("THAT".data), ("I".data), ("COMMAND".data)]
    ("THAT PETITIONER COMMANDS".data) t
  let t := replacePhrase [("THAT".data), ("I".data), ("HAVE".data)]
    ("THAT PETITIONER HAS".data) t
  let t := replacePhrase [("THAT".data), ("I".data), ("AM".data)]
    ("THAT PETITIONER IS".data) t
  let t := replacePhrase [("THAT".data), ("I".data), ("WILL".data)]
    ("THAT PETITIONER WILL".data) t
  let t := replacePhrase [("THAT".data), ("I".data)] ("THAT PETITIONER".data) t
  let t := replacePhrase [("OF".data), ("MY".data)]
    (("OF PETITIONER".data) ++ [apos, 'S']) t
  let t := replacePhrase [("MY".data)] (("PETITIONER".data) ++ [apos, 'S']) t
  let t := replaceStandaloneI t
  let t := replacePhrase [("ME".data)] ("PETITIONER".data) t
  t

/-- The normalisation steps of eb1's cleanDesc before the URL check (lines
55–64): trim and collapse whitespace, strip page references, fix
"is, available at", normalise "available at" phrasings. -/
def cleanDescCore (raw : List Char) : List Char :=
  let d := collapseWs (trim raw)
  let d := removePageRefs d
  let d := gsubBnd isCommaAvailAt ("is available at".data) (d.length + 1) false d
  gsubPlain availNormAt (", available at ".data) (d.length + 1) d

/-- cleanDesc of eb1-extractor.ts: a description that ends in a URL is
returned as is; otherwise trailing punctuation is tidied and exactly one
terminal period appended (the empty result stays empty). -/
def cleanDesc (raw : List Char) : List Char :=
  let d := cleanDescCore raw
  if endsUrlTest d then d
  else
    let d := stripCommaDashEnd d
    let d := stripTrailPunct d
    if d.isEmpty then d else d ++ ['.']

def cleanDescStr (raw : List Char) : String := String.mk (cleanDesc raw)

/-- desc.includes('http'). -/
def hasHttp (desc : String) : Bool := containsSub ("http".data) desc.data

/-- The update of one iteration of dedupeBest's loop: note that a stored empty
string is falsy in the (!best[num]) test and is therefore overwritten
unconditionally. -/
def dedupeStep (b : List (Nat × String)) (a : Attachment) : List (Nat × String) :=
  match alookup a.num b with
  | none => aset a.num a.desc b
  | some cur =>
    if cur = "" then aset a.num a.desc b
    else
      let candU := hasHttp a.desc
      let curU := hasHttp cur
      if (candU && !curU) || ((candU == curU) && decide (a.desc.length > cur.length)) then
        aset a.num a.desc b
      else b

/-- dedupeBest of eb1-extractor.ts: fold the preference update over the pairs,
then emit the per-number winners sorted by number (Object.entries already
iterates the integer-like keys in ascending order; the final .sort by num is
kept as in the source). -/
def dedupeBest (pairs : List Attachment) : List Attachment :=
  let best := pairs.foldl dedupeStep []
  sortByNum ((entriesAsc best).map (fun e => Attachment.mk e.1 (e.2)))

/-- The see-attachment pattern variant of eb1 (URL body class [^\s)]). -/
def seeV : SeePat := ⟨dashEB1, sepEB1, nonSpaceParen⟩

/-- The embedded-attachment pattern of the see branch (lines 188–193):
,?\s*Attachment\s+(\d+)\s*[DASH]?\s*  (i) — comma optional, dash optional. -/
def embSee : EmbPat := ⟨true, true, dashEB1⟩

/-- The embedded-attachment split pattern of the enum branch (line 282):
,\s*Attachment\s+(\d+)\s*[DASH]?\s*  (gi) — comma required, dash optional. -/
def embEnum : EmbPat := ⟨false, true, dashEB1⟩

/-- ITEM_ENUM_RE of eb1 (comma required before "available", separator class
[:DASH]). -/
def enumP : AvailPat := ⟨CommaMode.req, false, sepEB1, nonSpace⟩

end EB1

/-- Elements at even indices (what String.split returns without the capture
group interleaving: the text pieces). -/
def evenIdx {α : Type} : List α → List α
  | [] => []
  | [a] => [a]
  | a :: _ :: rest => a :: evenIdx rest

/-- Elements at odd indices (the interleaved capture-group values). -/
def oddIdx {α : Type} : List α → List α
  | [] => []
  | [_] => []
  | _ :: b :: rest => b :: oddIdx rest

namespace EB1

open JS Rx

/-- /EVIDENCE.*LEADING.*CRITICAL.*ROLE/i — substrings in order. -/
def containsSeqCI : List (List Char) → List Char → Bool
  | [], _ => true
  | p :: ps, s =>
    match findCI p s with
    | some (_, rest) => containsSeqCI ps rest
    | none => false

def canonLeading (t : List Char) : Bool :=
  containsSeqCI [("EVIDENCE".data), ("LEADING".data), ("CRITICAL".data), ("ROLE".data)] t

/-- /EVIDENCE.*MEMBERSHIP.*ASSOCIATIONS.*(?:THAT|WHICH).*DEMAND/i . -/
def canonMembership (t : List Char) : Bool :=
  (containsSeqCI [("EVIDENCE".data), ("MEMBERSHIP".data), ("ASSOCIATIONS".data),
    ("THAT".data), ("DEMAND".data)] t) ||
  (containsSeqCI [("EVIDENCE".data), ("MEMBERSHIP".data), ("ASSOCIATIONS".data),
    ("WHICH".data), ("DEMAND".data)] t)

def canonLeadingTitle : List Char :=
  ("EVIDENCE OF LEADING OR CRITICAL ROLE IN AN ORGANIZATION".data)

def canonMembershipTitle : List Char :=
  ("EVIDENCE OF PETITIONER".data) ++ [apos, 'S'] ++
  (" MEMBERSHIP IN ASSOCIATIONS IN THE FIELD WHICH DEMAND OUTSTANDING ACHIEVEMENT OF THEIR MEMBERS".data)

/-- Header normalisation (lines 116–130): collapse whitespace, uppercase,
remove (PAGES …), strip trailing [;.], trim, normalise pronouns, canonicalise
the two known near-duplicate headings. -/
def normalizeTitle (trimmed : List Char) : List Char :=
  let title := upper (collapseWs trimmed)
  let title := gsubPlain pagesParenAt ([] : List Char) (title.length + 1) title
  let title := trim (stripSemiDotEnd title)
  let title := normalizeHeadingPronouns title
  let title := if canonLeading title then canonLeadingTitle else title
  if canonMembership title then canonMembershipTitle else title

/-- The mutable locals of extractEB1: the groups object and currentSection. -/
structure St where
  groups : List (String × List Attachment)
  currentSection : String

def initSt : St := St.mk [("", [])] ""

/-- groups[currentSection].push(...items). -/
def pushCur (st : St) (items : List Attachment) : St :=
  St.mk
    (aset st.currentSection (((alookup st.currentSection st.groups).getD []) ++ items)
      st.groups)
    st.currentSection

/-- The attachment-line branch (lines 143–165). -/
def attachmentBranch (trimmed : List Char) : Option Attachment :=
  match attachmentLineMatch trimmed with
  | none => none
  | some (num, desc0, url0) =>
    let desc1 := stripFinalComma (trim desc0)
    let url1 := trim url0
    let du :=
      if url1.isEmpty then
        match availUrlExtract sepEB1pipe desc1 with
        | some (u, rem) => (trim rem, u)
        | none => (desc1, url1)
      else (desc1, url1)
    let fullDesc :=
      if du.2.isEmpty then du.1 else du.1 ++ (", available at ".data) ++ du.2
    some (Attachment.mk num (cleanDescStr fullDesc))

/-- Embedded processing inside the see branch (lines 186–234); returns
(main desc, main url, embedded attachments). -/
def seeEmbedded (desc1 : List Char) : List Char × List Char × List Attachment :=
  let partsAll := splitEmbedded embSee desc1
  let parts := evenIdx partsAll
  let embNums := oddIdx partsAll
  let mainDesc0 := stripFinalComma (trim (parts.getD 0 []))
  let mu :=
    match availUrlExtract sepEB1pipe mainDesc0 with
    | some (u, rem) => (trim rem, u)
    | none => (mainDesc0, ([] : List Char))
  let embedded := (List.range embNums.length).foldl (fun acc i =>
    let embNum := digitsToNat (embNums.getD i [])
    let embDesc0 := stripFinalComma (trim (parts.getD (i + 1) []))
    let eu :=
      match availUrlExtract sepEB1pipe embDesc0 with
      | some (u, rem) => (trim rem, u)
      | none => (embDesc0, ([] : List Char))
    let fullEmb :=
      if eu.2.isEmpty then eu.1 else eu.1 ++ (", available at ".data) ++ eu.2
    if eu.1.isEmpty then acc else acc ++ [Attachment.mk embNum (cleanDescStr fullEmb)]) []
  (mu.1, mu.2, embedded)

/-- Build the final description of a main citation (lines 237–244 and
332–337): append ", available at URL" unless the text already says
"available at", in which case complete the dangling phrase at the end. -/
def buildFullDesc (desc url : List Char) : List Char :=
  if url.isEmpty then desc
  else if !hasAvailableAt desc then desc ++ (", available at ".data) ++ url
  else appendUrlAfterAvailAt sepEB1 url desc

/-- One see-attachment match processed (lines 172–252): the main citation
followed by its embedded ones. -/
def seeProcessOne (m : Nat × List Char × List Char × List Char) : List Attachment :=
  let num := m.1
  let desc1 := stripFinalComma (trim m.2.1)
  let url1 := trim m.2.2.1
  let url2 :=
    if url1.isEmpty then
      match availUrlScan sepEB1 m.2.2.2 with
      | some u => u
      | none => url1
    else url1
  let embTest := (scanPos (embMatchAt embSee) desc1).isSome
  let dfe :=
    if embTest then
      let r := seeEmbedded desc1
      (r.1, (if !r.2.1.isEmpty && url2.isEmpty then r.2.1 else url2), r.2.2)
    else (desc1, url2, ([] : List Attachment))
  Attachment.mk num (cleanDescStr (buildFullDesc dfe.1 dfe.2.1)) :: dfe.2.2

/-- One chained fragment's cleaned text before its own URL check (line 327). -/
def embFragDesc (partsAll : List (List Char)) (i : Nat) : List Char :=
  trim (stripDashWsEnd dashEB1 (stripDotWsEnd (stripCommaWsEnd (trim (partsAll.getD (i + 1) [])))))

/-- One chained fragment's (description, own URL) pair after the URL check on
its own text (lines 329–333). -/
def embFragEU (partsAll : List (List Char)) (i : Nat) : List Char × List Char :=
  match availUrlExtract sepEB1 (embFragDesc partsAll i) with
  | some (u, rem) => (trim rem, stripFinalComma u)
  | none => (embFragDesc partsAll i, ([] : List Char))

/-- The citation built from one chained fragment (lines 326–336): the
fragment's own captured number, and its own URL appended when its own text
carries one. -/
def embFragItem (partsAll : List (List Char)) (i : Nat) : Attachment :=
  Attachment.mk (digitsToNat (partsAll.getD i []))
    (cleanDescStr (if (embFragEU partsAll i).2.isEmpty then (embFragEU partsAll i).1
      else (embFragEU partsAll i).1 ++ (", available at ".data) ++ (embFragEU partsAll i).2))

/-- The main (description, dangling URL) pair of the chained case
(lines 317–323): the main description is derived from the text before the
first fragment only. -/
def mainMU (mainRaw : List Char) : List Char × List Char :=
  match availUrlExtractEnd sepEB1 (stripCommaWsEnd (trim mainRaw)) with
  | some (u, bef) => (trim bef, stripFinalComma u)
  | none => (stripCommaWsEnd (trim mainRaw), ([] : List Char))

/-- The secondary whole-line URL scan of the enumeration branch
(lines 306–312). -/
def enumUrl2 (trimmed url0 : List Char) : List Char :=
  if (trim url0).isEmpty then
    match availUrlScan sepEB1 trimmed with
    | some u => u
    | none => trim url0
  else trim url0

/-- The URL selected for the main citation in the chained case (line 338):
the dangling main URL only when the line-level scan found none. -/
def mainUrlSel (trimmed url0 mainRaw : List Char) : List Char :=
  if !(mainMU mainRaw).2.isEmpty && (enumUrl2 trimmed url0).isEmpty then (mainMU mainRaw).2
  else enumUrl2 trimmed url0

/-- The body of the enumeration branch once the line matched ITEM_ENUM_RE
(lines 266–345), named so the branch can be reasoned about past the match:
the main citation built from the text before the first chained fragment,
followed by one citation per chained fragment. -/
def enumBody (trimmed : List Char) (num : Nat) (desc0 url0 : List Char) : List Attachment :=
  let desc1 := stripFinalComma (trim desc0)
  let partsAll := splitEmbedded embEnum desc1
  let dfe :=
    if partsAll.length > 1 then
      ((mainMU (partsAll.getD 0 [])).1,
       mainUrlSel trimmed url0 (partsAll.getD 0 []),
       ((List.range partsAll.length).filter (fun i => i % 2 = 1)).foldl
         (fun acc i =>
           if (embFragEU partsAll i).1.isEmpty then acc
           else acc ++ [embFragItem partsAll i]) [])
    else (desc1, enumUrl2 trimmed url0, ([] : List Attachment))
  Attachment.mk num (cleanDescStr (buildFullDesc dfe.1 dfe.2.1)) :: dfe.2.2

/-- The plain-enumeration branch (lines 261–345). -/
def enumBranch (trimmed : List Char) : Option (List Attachment) :=
  match itemEnumMatch enumP trimmed with
  | none => none
  | some (num, desc0, url0) => some (enumBody trimmed num desc0 url0)

/-- matchAll of the module-level SEE_ATTACHMENT_RE: per the matchAll spec the
iterator starts from the regex's current lastIndex, which this module only
ever reads (it is 0 from module load and no call path writes it). -/
def seeMatchAllFrom (seeIdx : Nat) (s : List Char) :
    List (Nat × List Char × List Char × List Char) :=
  seeMatchAll seeV (s.drop seeIdx)

/-- One iteration of the paragraph loop of extractEB1 (lines 109–347). -/
def step (seeIdx : Nat) (st : St) (para : List Char) : St :=
  let trimmed := trim para
  if trimmed.isEmpty then st
  else if isHeader trimmed then
    let name := String.mk (normalizeTitle trimmed)
    St.mk
      (if (alookup name st.groups).isSome then st.groups else aset name [] st.groups)
      name
  else
    match attachmentBranch trimmed with
    | some item => pushCur st [item]
    | none =>
      let seeMatches := seeMatchAllFrom seeIdx trimmed
      match seeMatches with
      | _ :: _ =>
        let pairs := seeMatches.flatMap seeProcessOne
        match pairs with
        | _ :: _ => pushCur st pairs
        | [] => st
      | [] =>
        match enumBranch trimmed with
        | some items => pushCur st items
        | none => st

/-- The final pass (lines 349–369): dedupe each section with dedupeBest,
drop empty sections, emit the pre-section bucket first. -/
def finalize (groups : List (String × List Attachment)) : GroupedAttachments :=
  let pre : GroupedAttachments :=
    match alookup "" groups with
    | some l =>
      if l.isEmpty then []
      else
        let d := dedupeBest l
        if d.isEmpty then [] else [("", d)]
    | none => []
  (groups.filter (fun p => p.1 ≠ "")).foldl
    (fun acc p =>
      let d := dedupeBest p.2
      if d.isEmpty then acc else acc ++ [(p.1, d)]) pre

/-- extractEB1 with the ghost lastIndex of the module-level global regex
threaded through (never written by any call path). -/
def extractCore (seeIdx : Nat) (text : List Char) : GroupedAttachments :=
  finalize (((Rx.paragraphs text).foldl (step seeIdx) initSt).groups)

/-- The observable module state: the lastIndex of SEE_ATTACHMENT_RE (the only
global-flag regex this module ever applies to a string). -/
def extractWithState (seeIdx : Nat) (text : List Char) : GroupedAttachments × Nat :=
  (extractCore seeIdx text, seeIdx)

/-- export function extractEB1 (module state at load time: lastIndex 0). -/
def extractEB1 (text : String) : GroupedAttachments := extractCore 0 text.data

end EB1

namespace EB2

open JS Rx

def apos : Char := Char.ofNat 39

/-- The curly right single quote accepted by the CV test. -/
def rsq : Char := Char.ofNat 8217

def romanCharCI (c : Char) : Bool :=
  let u := toUpperChar c
  u = 'I' || u = 'V' || u = 'X' || u = 'L' || u = 'C' || u = 'D' || u = 'M'

/-- SECTION_RX: /^[IVXLCDM]+\.\s+.+/i .  The class run is greedy and must be
followed by the dot; \s+.+ needs a space first and at least two characters in
total after the dot. -/
def sectionRx (s : List Char) : Bool :=
  let run := s.takeWhile romanCharCI
  if run.isEmpty then false
  else
    match s.drop run.length with
    | '.' :: r =>
      (match r with
       | c :: _ :: _ => isSpace c
       | _ => false)
    | _ => false

/-- /CONCLUSION/i.test . -/
def hasConclusion (s : List Char) : Bool := containsCI ("CONCLUSION".data) s

/-- The table-of-contents skip /[\t\s]+\d+\s*$/ (line 86): whitespace, a bare
number, optional whitespace, end. -/
def tocNumTest (s : List Char) : Bool :=
  let r := s.reverse.dropWhile isSpace
  let ds := r.takeWhile isDigit
  if ds.isEmpty then false
  else
    match r.drop ds.length with
    | c :: _ => isSpace c
    | [] => false

/-- replace(/\s+\d+\s*$/, '') (line 92). -/
def stripTrailingNum (s : List Char) : List Char :=
  let r := s.reverse.dropWhile isSpace
  let ds := r.takeWhile isDigit
  if ds.isEmpty then s
  else
    match r.drop ds.length with
    | c :: _ =>
      if isSpace c then ((r.drop ds.length).dropWhile isSpace).reverse else s
    | [] => s

/-- normalizeHeadingPronouns of eb2-extractor.ts (uppercases, then the
replacement order of the source). -/
def normalizeHeadingPronouns (title : List Char) : List Char :=
  let t := upper title
  let t := replacePhrase [("ABOUT".data), ("ME".data)] ("ABOUT PETITIONER".data) t
  let t := replacePhrase [("OF".data), ("MY".data)]
    (("OF PETITIONER".data) ++ [apos, 'S']) t
  let t := replacePhrase [("THAT".data), ("I".data), ("COMMAND".data)]
    ("THAT PETITIONER COMMANDS".data) t
  let t := replacePhrase [("THAT".data), ("I".data), ("HAVE".data)]
    ("THAT PETITIONER HAS".data) t
  let t := replacePhrase [("THAT".data), ("I".data), ("AM".data)]
    ("THAT PETITIONER IS".data) t
  let t := replacePhrase [("THAT".data), ("I".data), ("WILL".data)]
    ("THAT PETITIONER WILL".data) t
  let t := replacePhrase [("THAT".data), ("I".data)] ("THAT PETITIONER".data) t
  let t := replacePhrase [("MY".data)] (("PETITIONER".data) ++ [apos, 'S']) t
  let t := replaceStandaloneI t
  let t := replacePhrase [("ME".data)] ("PETITIONER".data) t
  t

/-- Header text normalisation (lines 90–94). -/
def normalizeHeading (trimmed : List Char) : List Char :=
  normalizeHeadingPronouns (trim (stripTrailingNum (trim (collapseWs trimmed))))

/-- /Petitioner['’]?s\s+CV/i.test . -/
def cvTestAt (s : List Char) : Option Unit :=
  match stripCI ("petitioner".data) s with
  | none => none
  | some r =>
    let r2 :=
      match r with
      | c :: rest => if c = apos || c = rsq then rest else r
      | [] => r
    match stripCI ("s".data) r2 with
    | none => none
    | some r3 =>
      match r3 with
      | c :: _ =>
        if isSpace c then
          match stripCI ("cv".data) (r3.dropWhile isSpace) with
          | some _ => some ()
          | none => none
        else none
      | [] => none

def cvTest (s : List Char) : Bool := (scanPos cvTestAt s).isSome

/-- matchAt for /\bCV\b/g (case-sensitive). -/
def cvWordAt (s : List Char) : Option (List Char) :=
  match stripCS ("CV".data) s with
  | none => none
  | some r =>
    match r with
    | [] => some ([] : List Char)
    | c :: _ => if isWordChar c then none else some r

/-- replace(/\)\.$/, '.'). -/
def parenDotFix (s : List Char) : List Char :=
  match s.reverse with
  | '.' :: ')' :: r => ('.' :: r).reverse
  | _ => s

/-- replace(/\)$/, ''). -/
def parenEndFix (s : List Char) : List Char :=
  match s.reverse with
  | ')' :: r => r.reverse
  | _ => s

/-- cleanDesc of eb2-extractor.ts (lines 42–67).  Unlike the eb1 cleaner it
has no URL case: it always ends the result with a period. -/
def cleanDesc (raw : List Char) : List Char :=
  let d := trim raw
  let d :=
    if cvTest d then d
    else gsubBnd cvWordAt (("Petitioner".data) ++ [apos] ++ ("s CV".data)) (d.length + 1) false d
  let d := removePageRefs d
  let d := parenDotFix d
  let d := parenEndFix d
  let d := stripCommaWsEnd d
  let d := trim d
  if endsWithChar '.' d then d else d ++ ['.']

def cleanDescStr (raw : List Char) : String := String.mk (cleanDesc raw)

/-- The see-attachment pattern variant of eb2 (URL body class \S). -/
def seeV : SeePat := ⟨dashEB2, sepEB2, nonSpace⟩

/-- EMBEDDED_ATTACHMENT_RE: ,\s*Attachment\s+(\d+)\s*[-–—]\s*  (gi) — comma
and dash both required. -/
def embP : EmbPat := ⟨false, false, dashEB2⟩

/-- ITEM_ENUM_RE of eb2 (optional comma, separator class [:\-–—]). -/
def enumP : AvailPat := ⟨CommaMode.opt, false, sepEB2, nonSpace⟩

/-- The mutable locals of extractEB2 (lines 70–75). -/
structure St where
  bySec : List (String × List Attachment)
  seenInSec : List (String × List Nat)
  seenGlobally : List (Nat × String)
  preSectionItems : List (Nat × Attachment)
  currentSec : Option String
  firstSection : Option String

def initSt : St := St.mk [] [] [] [] none none

/-- The two skip conditions guarding every recognised number (lines 119–126,
162–169, 196–201): the number is already owned by a different section, or was
already seen in the current section. -/
def skipNum (st : St) (num : Nat) : Bool :=
  (match alookup num st.seenGlobally, st.currentSec with
   | some g, some c => g ≠ c
   | _, _ => false) ||
  (match st.currentSec with
   | some c => ((alookup c st.seenInSec).getD []).contains num
   | none => false)

/-- Final-description builder of eb2 (lines 140–147 and 231–238). -/
def buildFullDesc (desc url : List Char) : List Char :=
  if url.isEmpty then desc
  else if !hasAvailableAt desc then desc ++ (", available at ".data) ++ url
  else appendUrlAfterAvailAt sepEB2 url desc

def seeMatchAllFrom (seeIdx : Nat) (s : List Char) :
    List (Nat × List Char × List Char × List Char) :=
  seeMatchAll seeV (s.drop seeIdx)

/-- The item built from one see-attachment match (lines 128–149). -/
def seeItem (m : Nat × List Char × List Char × List Char) : Attachment :=
  let desc1 := stripFinalComma (trim m.2.1)
  let url1 := trim m.2.2.1
  let url2 :=
    if url1.isEmpty then
      match availUrlScan sepEB2 m.2.2.2 with
      | some u => u
      | none => url1
    else url1
  Attachment.mk m.1 (cleanDescStr (buildFullDesc desc1 url2))

/-- The see-attachment loop (lines 113–153): the found items, in match order,
with already-seen numbers skipped. -/
def seeFound (st : St) (seeIdx : Nat) (trimmed : List Char) : List Attachment :=
  (seeMatchAllFrom seeIdx trimmed).foldl (fun acc m =>
    if skipNum st m.1 then acc else acc ++ [seeItem m]) []

/-- The item built from one embedded continuation of the enumeration branch
(lines 191–216): parts[i] is the captured number, parts[i+1] its text. -/
def embItem (partsAll : List (List Char)) (i : Nat) : Attachment :=
  let embNum := digitsToNat (partsAll.getD i [])
  let embDesc0 := stripDotWsEnd (stripCommaWsEnd (trim (partsAll.getD (i + 1) [])))
  let eu :=
    match availUrlExtract sepEB2 embDesc0 with
    | some (u, rem) => (trim rem, u)
    | none => (embDesc0, ([] : List Char))
  let fullEmb :=
    if eu.2.isEmpty then eu.1
    else eu.1 ++ (", available at ".data) ++ eu.2
  Attachment.mk embNum (cleanDescStr fullEmb)

/-- The body of the plain-enumeration branch once its number passed the skip
tests (lines 171–240): embedded continuations first, then the main item, as
pushed by the source. -/
def enumItems (st : St) (trimmed : List Char) (num : Nat) (desc0 url0 : List Char) :
    List Attachment :=
  let desc1 := stripFinalComma (trim desc0)
  let url1 := trim url0
  let embTest := (scanPos (embMatchAt embP) desc1).isSome
  let de :=
    if embTest then
      let partsAll := splitEmbedded embP desc1
      let mainDesc := stripCommaWsEnd (trim (partsAll.getD 0 []))
      let embedded := ((List.range (partsAll.length - 1)).filter (fun i => i % 2 = 1)).foldl
        (fun acc i =>
          if skipNum st (digitsToNat (partsAll.getD i [])) then acc
          else acc ++ [embItem partsAll i]) []
      (mainDesc, embedded)
    else (desc1, ([] : List Attachment))
  let url2 :=
    if url1.isEmpty then
      match availUrlScan sepEB2 trimmed with
      | some u => u
      | none => url1
    else url1
  de.2 ++ [Attachment.mk num (cleanDescStr (buildFullDesc de.1 url2))]

/-- The plain-enumeration branch (lines 156–241); returns the found items,
or [] when the paragraph is skipped. -/
def enumFound (st : St) (trimmed : List Char) : List Attachment :=
  match itemEnumMatch enumP trimmed with
  | none => []
  | some (num, desc0, url0) =>
    if skipNum st num then [] else enumItems st trimmed num desc0 url0

/-- Assignment of one found item (lines 245–261): inside a section the item is
added unless its number already belongs elsewhere, vacating the pre-section
buffer; before the first section it goes to the pre-section buffer. -/
def addItem (st : St) (item : Attachment) : St :=
  match st.currentSec with
  | some c =>
    if (alookup item.num st.seenGlobally).isNone
        || (alookup item.num st.preSectionItems).isSome then
      let sns := (alookup c st.seenInSec).getD []
      St.mk
        (aset c (((alookup c st.bySec).getD []) ++ [item]) st.bySec)
        (aset c (if sns.contains item.num then sns else sns ++ [item.num]) st.seenInSec)
        (aset item.num c st.seenGlobally)
        (adelete item.num st.preSectionItems)
        st.currentSec
        st.firstSection
    else st
  | none =>
    if (alookup item.num st.seenGlobally).isNone then
      St.mk st.bySec st.seenInSec st.seenGlobally
        (aset item.num item st.preSectionItems) st.currentSec st.firstSection
    else st

/-- The items recognised in one non-header paragraph: the see loop, or — when
it found nothing — the enumeration branch. -/
def foundItems (st : St) (seeIdx : Nat) (trimmed : List Char) : List Attachment :=
  let sf := seeFound st seeIdx trimmed
  if sf.isEmpty then enumFound st trimmed else sf

/-- One iteration of the paragraph loop of extractEB2 (lines 79–262). -/
def step (seeIdx : Nat) (st : St) (para : List Char) : St :=
  let trimmed := trim para
  if trimmed.isEmpty then st
  else if sectionRx trimmed && !hasConclusion trimmed then
    if tocNumTest trimmed then st
    else
      let name := String.mk (normalizeHeading trimmed)
      let fs := if st.firstSection = none then some name else st.firstSection
      if (alookup name st.bySec).isSome then
        St.mk st.bySec st.seenInSec st.seenGlobally st.preSectionItems (some name) fs
      else
        St.mk (aset name [] st.bySec) (aset name [] st.seenInSec)
          st.seenGlobally st.preSectionItems (some name) fs
  else
    (foundItems st seeIdx trimmed).foldl addItem st

/-- Whether this paragraph executes the EMBEDDED_ATTACHMENT_RE.lastIndex
reset-and-test of lines 175–178 (the enumeration branch reached with an
unskipped match).  The source resets lastIndex to 0 immediately before the
test and again after it, so the test outcome never depends on the incoming
value and the regex is left with lastIndex 0. -/
def stepTouchesEmb (st : St) (seeIdx : Nat) (para : List Char) : Bool :=
  let trimmed := trim para
  if trimmed.isEmpty then false
  else if sectionRx trimmed && !hasConclusion trimmed then false
  else if !(seeFound st seeIdx trimmed).isEmpty then false
  else
    match itemEnumMatch enumP trimmed with
    | some (num, _, _) => !skipNum st num
    | none => false

/-- One finalSeen check: keep the item and record its number unless the
number was already emitted. -/
def takeNew (q : List Attachment × List Nat) (it : Attachment) : List Attachment × List Nat :=
  if q.2.contains it.num then q else (q.1 ++ [it], q.2 ++ [it.num])

/-- The final pass (lines 264–296): pre-section items first (ascending key
order of the for..in loop), then each section in insertion order, every
number emitted at most once across the whole result, sections sorted by
number and dropped when empty. -/
def finalize (pre : List (Nat × Attachment)) (bySec : List (String × List Attachment)) :
    GroupedAttachments :=
  let p1 := (entriesAsc pre).foldl (fun p e => takeNew p e.2) ([], [])
  let res0 : GroupedAttachments := if p1.1.isEmpty then [] else [("", sortByNum p1.1)]
  (bySec.foldl
    (fun (acc : GroupedAttachments × List Nat) sp =>
      let r := sp.2.foldl takeNew ([], acc.2)
      if r.1.isEmpty then (acc.1, r.2) else (acc.1 ++ [(sp.1, sortByNum r.1)], r.2))
    (res0, p1.2)).1

def runParas (seeIdx : Nat) (st : St) (paras : List (List Char)) : St :=
  paras.foldl (step seeIdx) st

/-- extractEB2 with the ghost lastIndex of SEE_ATTACHMENT_RE threaded. -/
def extractCore (seeIdx : Nat) (text : List Char) : GroupedAttachments :=
  let st := runParas seeIdx initSt (Rx.paragraphs text)
  finalize st.preSectionItems st.bySec

/-- Whether any paragraph of the run touches EMBEDDED_ATTACHMENT_RE. -/
def runTouchesEmb (seeIdx : Nat) (text : List Char) : Bool :=
  ((Rx.paragraphs text).foldl
    (fun (p : St × Bool) para =>
      (step seeIdx p.1 para, p.2 || stepTouchesEmb p.1 seeIdx para))
    (initSt, false)).2

/-- The observable module state of eb2-extractor.ts: the lastIndex values of
SEE_ATTACHMENT_RE (read-only) and EMBEDDED_ATTACHMENT_RE (reset to 0 whenever
used). -/
def extractWithState (mod : Nat × Nat) (text : List Char) :
    GroupedAttachments × (Nat × Nat) :=
  (extractCore mod.1 text,
   (mod.1, if runTouchesEmb mod.1 text then 0 else mod.2))

/-- export function extractEB2 (module state at load time: both lastIndex 0). -/
def extractEB2 (text : String) : GroupedAttachments := extractCore 0 text.data

end EB2

namespace EB2L

open JS Rx

/-- SECTION_RX of the legacy variant (same /^[IVXLCDM]+\.\s+.+/i). -/
def sectionRx (s : List Char) : Bool := EB2.sectionRx s

def hasConclusion (s : List Char) : Bool := containsCI ("CONCLUSION".data) s

/-- ATTACH_ANCHOR_RX match at a position: Attachment\s+(\d+)\s*[-–—]\s*  (gi). -/
def anchorAt (s : List Char) : Option (List Char × List Char) :=
  match stripCI ("attachment".data) s with
  | none => none
  | some r =>
    match r with
    | [] => none
    | c :: _ =>
      if isSpace c then
        let r1 := r.dropWhile isSpace
        let ds := r1.takeWhile isDigit
        if ds.isEmpty then none
        else
          match (r1.dropWhile isDigit).dropWhile isSpace with
          | d :: r4 => if dashEB2 d then some (ds, r4.dropWhile isSpace) else none
          | [] => none
      else none

/-- All anchors of a paragraph with the raw description sliced from the end of
each anchor to the start of the next anchor (or the end of the paragraph),
as the source does with m.index arithmetic. -/
def anchorItems : Nat → List Char → List (Nat × List Char)
  | 0, _ => []
  | fuel + 1, s =>
    match scanPos anchorAt s with
    | none => []
    | some (_, (ds, after)) =>
      let rawDesc :=
        match scanPos anchorAt after with
        | some (before, _) => before
        | none => after
      (digitsToNat ds, rawDesc) :: anchorItems fuel after

/-- cleanDesc of the legacy variant (lines 46–63): no CV expansion, no comma
strip; always ends with a period. -/
def cleanDesc (raw : List Char) : List Char :=
  let d := trim raw
  let d := removePageRefs d
  let d := EB2.parenDotFix d
  let d := EB2.parenEndFix d
  let d := trim d
  if endsWithChar '.' d then d else d ++ ['.']

def cleanDescStr (raw : List Char) : String := String.mk (cleanDesc raw)

/-- romanToNumber (lines 16–35): right-to-left accumulation, subtracting a
value smaller than its right neighbour. -/
def romanVal (c : Char) : Int :=
  if c = 'I' then 1 else if c = 'V' then 5 else if c = 'X' then 10
  else if c = 'L' then 50 else if c = 'C' then 100 else if c = 'D' then 500
  else if c = 'M' then 1000 else 0

def romanToNumber (roman : List Char) : Int :=
  (roman.reverse.foldl
    (fun (p : Int × Int) c =>
      let v := romanVal c
      if v < p.2 then (p.1 - v, v) else (p.1 + v, v))
    (0, 0)).1

/-- extractRomanNumeral (lines 38–44): /^([IVXLCDM]+)\./i then conversion of
the uppercased capture. -/
def extractRomanNumeral (sec : String) : Option Int :=
  let s := sec.data
  let run := s.takeWhile EB2.romanCharCI
  if run.isEmpty then none
  else
    match s.drop run.length with
    | '.' :: _ => some (romanToNumber (upper run))
    | _ => none

/-- The section comparator of lines 132–151. -/
def sectionCmp (a b : String) : Int :=
  if a = "" then -1
  else if b = "" then 1
  else
    match extractRomanNumeral a, extractRomanNumeral b with
    | some x, some y => x - y
    | some _, none => -1
    | none, some _ => 1
    | none, none => if a = b then 0 else if a < b then -1 else 1

/-- sections.sort(cmp): kept when the comparator is nonpositive. -/
def secLe (a b : String × List Attachment) : Prop := sectionCmp a.1 b.1 ≤ 0

instance : DecidableRel secLe := fun a b =>
  inferInstanceAs (Decidable (sectionCmp a.1 b.1 ≤ 0))

structure St where
  bySec : List (String × List Attachment)
  seenInSec : List (String × List Nat)
  currentSec : String

def initSt : St := St.mk [("", [])] [("", [])] ""

/-- One iteration of the paragraph loop (lines 78–120). -/
def step (st : St) (para : List Char) : St :=
  let trimmed := trim para
  if trimmed.isEmpty then st
  else if sectionRx trimmed && !hasConclusion trimmed then
    let name := String.mk (trim (collapseWs trimmed))
    if (alookup name st.bySec).isSome then St.mk st.bySec st.seenInSec name
    else St.mk (aset name [] st.bySec) (aset name [] st.seenInSec) name
  else
    (anchorItems (trimmed.length + 1) trimmed).foldl
      (fun acc it =>
        if ((alookup acc.currentSec acc.seenInSec).getD []).contains it.1 then acc
        else
          let desc := cleanDesc it.2
          if desc.isEmpty then acc
          else
            let sns := (alookup acc.currentSec acc.seenInSec).getD []
            St.mk
              (aset acc.currentSec
                (((alookup acc.currentSec acc.bySec).getD []) ++
                  [Attachment.mk it.1 (String.mk desc)]) acc.bySec)
              (aset acc.currentSec (sns ++ [it.1]) acc.seenInSec)
              acc.currentSec)
      st

/-- The final passes (lines 122–158): per-section sort and empty-section drop
in insertion order, then the stable section sort by the Roman-numeral
comparator, then the object rebuild. -/
def finalize (bySec : List (String × List Attachment)) : GroupedAttachments :=
  let sections := bySec.foldl
    (fun (acc : GroupedAttachments) sp =>
      let sorted := sortByNum sp.2
      if sorted.isEmpty then acc else acc ++ [(sp.1, sorted)]) []
  sections.insertionSort secLe

/-- export function extractEB2 of the legacy variant. -/
def extractEB2 (text : String) : GroupedAttachments :=
  finalize (((Rx.paragraphs text.data).foldl step initSt).bySec)

end EB2L

namespace Route

/-- The uploaded file after the out-of-scope mammoth conversion: its name and
its extracted raw text (the converter is an external collaborator treated as
a black box, so the text is simply carried in the request model). -/
structure FileData where
  name : String
  text : String

/-- The responses of the POST handler that matter to the extraction contract. -/
inductive ExtractResponse where
  | clientError (msg : String) (status : Nat)
  | ok (attachments : GroupedAttachments) (filename : String)
deriving DecidableEq

/-- POST of app/api/extract/route.ts (lines 7–48): missing file and wrong
extension are client errors; otherwise the dialect selector runs extractEB2
exactly when the form field "type" is the string "eb2" (a missing field reads
as null) and extractEB1 in every other case. -/
def POST (file : Option FileData) (ty : Option String) : ExtractResponse :=
  match file with
  | none => ExtractResponse.clientError "No file provided" 400
  | some f =>
    if !(JS.endsWithLit (".docx".data) f.name.data) then
      ExtractResponse.clientError "Only .docx files are supported" 400
    else
      ExtractResponse.ok
        (if ty = some "eb2" then EB2.extractEB2 f.text else EB1.extractEB1 f.text)
        f.name

end Route

/-! ## Specification-side notions used by the claims -/

/-- Two sections overlap in no attachment number. -/
def disjNums (a b : String × List Attachment) : Prop :=
  ∀ n ∈ a.2.map Attachment.num, n ∉ b.2.map Attachment.num

instance : DecidableRel disjNums := fun a b =>
  inferInstanceAs (Decidable (∀ n ∈ a.2.map Attachment.num, n ∉ b.2.map Attachment.num))

/-- The preference measure of the dedup "best" policy: URL-bearing beats
URL-free, then longer beats shorter. -/
def urlRank (d : String) : Nat × Nat := ((if EB1.hasHttp d then 1 else 0), d.length)

/-- Strictly worse in the preference order (lexicographic). -/
def prefLt (a b : Nat × Nat) : Prop := a.1 < b.1 ∨ (a.1 = b.1 ∧ a.2 < b.2)

instance : DecidableRel prefLt := fun a b =>
  inferInstanceAs (Decidable (a.1 < b.1 ∨ (a.1 = b.1 ∧ a.2 < b.2)))

/-- The descriptions of the raw citations carrying a given number, in
encounter order. -/
def descsFor (num : Nat) (pairs : List Attachment) : List String :=
  (pairs.filter (fun a => a.num = num)).map Attachment.desc

/-- d is the first maximum of the candidate list under the preference order:
it occurs at a position strictly preceded only by strictly worse candidates,
and no candidate is strictly better. -/
def firstBest (l : List String) (d : String) : Prop :=
  ∃ k, l.get? k = some d ∧
    (∀ j c, j < k → l.get? j = some c → prefLt (urlRank c) (urlRank d)) ∧
    (∀ c ∈ l, ¬ prefLt (urlRank d) (urlRank c))

/-- The raw per-section accumulation of extractEB1 before its final dedup
pass (the groups object after the paragraph loop). -/
def collectedEB1 (t : String) (sec : String) : List Attachment :=
  (JS.alookup sec (((Rx.paragraphs t.data).foldl (EB1.step 0) EB1.initSt).groups)).getD []

/-- The replacement test of dedupeBest's loop, named for the lemmas below
(it is definitionally the inline condition of dedupeStep). -/
def betterB (cand cur : String) : Bool :=
  (EB1.hasHttp cand && !EB1.hasHttp cur) ||
    ((EB1.hasHttp cand == EB1.hasHttp cur) && decide (cand.length > cur.length))

/-- The per-section part of eb2's final pass, named for the lemmas below. -/
def sectionsFoldEB2 (L : List (String × List Attachment))
    (acc : GroupedAttachments × List Nat) : GroupedAttachments × List Nat :=
  L.foldl
    (fun (acc : GroupedAttachments × List Nat) sp =>
      let r := sp.2.foldl EB2.takeNew ([], acc.2)
      if r.1.isEmpty then (acc.1, r.2) else (acc.1 ++ [(sp.1, sortByNum r.1)], r.2))
    acc

/-- The assignment invariant of extractEB2's paragraph loop: the pre-section
buffer has no duplicate keys, and a number already assigned to a section is
never also pre-buffered. -/
def assignInv (st : EB2.St) : Prop :=
  (JS.akeys st.preSectionItems).Nodup ∧
  ∀ n g, JS.alookup n st.seenGlobally = some g →
    JS.alookup n st.preSectionItems = (none : Option Attachment)

/-! ## Association-list lemmas -/

namespace JS

theorem akeys_aset_of_mem {κ α : Type} [DecidableEq κ] (k : κ) (v : α) :
    ∀ l : List (κ × α), k ∈ akeys l → akeys (aset k v l) = akeys l := by
  intro l
  induction l with
  | nil => intro h; simp [akeys] at h
  | cons p rest ih =>
    intro h
    by_cases hk : p.1 = k
    · simp [aset, hk, akeys]
    · have hm : k ∈ akeys rest := by
        simp [akeys] at h ⊢
        rcases h with h | h
        · exact absurd h.symm hk
        · exact h
      have ihr := ih hm
      simp only [akeys] at ihr
      simp [aset, hk, akeys, ihr]

theorem alookup_aset_self {κ α : Type} [DecidableEq κ] (k : κ) (v : α) :
    ∀ l : List (κ × α), alookup k (aset k v l) = some v := by
  intro l
  induction l with
  | nil => simp [aset, alookup]
  | cons p rest ih =>
    by_cases hk : p.1 = k
    · simp [aset, hk, alookup]
    · simp [aset, hk, alookup, ih]

theorem alookup_aset_ne {κ α : Type} [DecidableEq κ] (k k2 : κ) (v : α) (hne : k2 ≠ k) :
    ∀ l : List (κ × α), alookup k2 (aset k v l) = alookup k2 l := by
  intro l
  have hne2 : ¬(k = k2) := fun h => hne h.symm
  induction l with
  | nil => simp [aset, alookup, hne2]
  | cons p rest ih =>
    by_cases hk : p.1 = k
    · have hp : ¬(p.1 = k2) := by rw [hk]; exact hne2
      simp [aset, hk, alookup, hp, hne2]
    · by_cases hk2 : p.1 = k2
      · simp [aset, hk, alookup, hk2, hne]
      · simp [aset, hk, alookup, hk2, ih]

theorem alookup_adelete_ne {κ α : Type} [DecidableEq κ] (k k2 : κ) (hne : k2 ≠ k) :
    ∀ l : List (κ × α), alookup k2 (adelete k l) = alookup k2 l := by
  intro l
  have hne2 : ¬(k = k2) := fun h => hne h.symm
  induction l with
  | nil => simp [adelete, alookup]
  | cons p rest ih =>
    by_cases hk : p.1 = k
    · have hp : ¬(p.1 = k2) := by rw [hk]; exact fun h => hne h.symm
      simp [adelete, hk, alookup, hp, hne2]
    · by_cases hk2 : p.1 = k2
      · simp [adelete, hk, alookup, hk2, hne]
      · simp [adelete, hk, alookup, hk2, ih]

end JS

/-! ## Claim theorems -/

theorem splitEmbedded_first (E : Rx.EmbPat) (s before ds after : List Char)
    (h : Rx.scanPos (Rx.embMatchAt E) s = some (before, (ds, after))) :
    Rx.splitEmbedded E s = before :: ds :: Rx.splitEmbeddedAux E s.length after := by
  unfold Rx.splitEmbedded
  simp only [Rx.splitEmbeddedAux]
  rw [h]

theorem foldl_cond_append_eq {α β : Type} (cond : β → Bool) (f : β → α) :
    ∀ (l : List β) (acc : List α),
      l.foldl (fun acc m => if cond m then acc else acc ++ [f m]) acc =
        acc ++ (l.filter (fun m => !cond m)).map f := by
  intro l
  induction l with
  | nil => intro acc; simp
  | cons m rest ih =>
    intro acc
    rw [List.foldl_cons]
    by_cases hc : cond m = true
    · rw [if_pos hc, ih]
      simp [List.filter_cons, hc]
    · have hc2 : cond m = false := by simpa using hc
      rw [if_neg hc, ih]
      simp [List.filter_cons, hc2]

theorem foldl_cond_append_mono {α β : Type} (cond : β → Bool) (f : β → α) :
    ∀ (l : List β) (acc : List α) (x : α), x ∈ acc →
      x ∈ l.foldl (fun acc m => if cond m then acc else acc ++ [f m]) acc := by
  intro l
  induction l with
  | nil => intro acc x hx; exact hx
  | cons m rest ih =>
    intro acc x hx
    rw [List.foldl_cons]
    by_cases hc : cond m = true
    · rw [if_pos hc]
      exact ih acc x hx
    · rw [if_neg hc]
      exact ih _ x (List.mem_append.mpr (Or.inl hx))

theorem foldl_cond_append_mem {α β : Type} (cond : β → Bool) (f : β → α) :
    ∀ (l : List β) (acc : List α) (m : β), m ∈ l → cond m = false →
      f m ∈ l.foldl (fun acc x => if cond x then acc else acc ++ [f x]) acc := by
  intro l
  induction l with
  | nil => intro acc m hm; intro _; simp at hm
  | cons m0 rest ih =>
    intro acc m hm hc
    rw [List.foldl_cons]
    rcases List.mem_cons.mp hm with h | h
    · subst h
      have hr : (if cond m = true then acc else acc ++ [f m]) = acc ++ [f m] := by
        rw [hc]
        simp
      rw [hr]
      exact foldl_cond_append_mono cond f rest _ _
        (List.mem_append.mpr (Or.inr (List.mem_singleton.mpr rfl)))
    · exact ih _ m h hc

theorem EB1_enumBranch_eq (trimmed : List Char) :
    EB1.enumBranch trimmed =
      match Rx.itemEnumMatch EB1.enumP trimmed with
      | none => none
      | some t => some (EB1.enumBody trimmed t.1 t.2.1 t.2.2) := by
  unfold EB1.enumBranch
  cases Rx.itemEnumMatch EB1.enumP trimmed with
  | none => rfl
  | some t =>
    obtain ⟨num, desc0, url0⟩ := t
    rfl

/-- C5: the paragraph "(2) Letter A, Attachment 3 - Letter B, Attachment 4 -
Letter C." yields, under both dialects, the three independent citations 2, 3
and 4, each with its own cleaned description, none containing the literal
text "Attachment" (first four conjuncts).  In general: the shared splitter
cuts the description at the first chained fragment, returning the text before
it, the fragment's own number and the rest (fifth conjunct); whenever the
description carries a chained fragment, dialect B's enumeration branch
returns exactly one citation per not-yet-seen chained fragment — each built
by embItem from its own fragment alone — followed by the main citation, whose
description is built only from the text before the first fragment (sixth
conjunct); a chained citation carries its fragment's own captured number
(seventh), inherits a URL from its own fragment's text when one is there
(eighth), and depends only on its own two fragment slots, never on the main
description or another fragment's URL (ninth); and in dialect A, under the
same chaining condition, the main citation leads the output with its
description built only from the text before the first fragment (tenth), and
every chained fragment whose own cleaned text is nonempty contributes its own
citation to the output (eleventh). -/
theorem C5_chained_citations :
    EB1.extractEB1 ("(2) Letter A, Attachment 3 - Letter B, Attachment 4 - Letter C.") =
      [("", [Attachment.mk 2 "Letter A.", Attachment.mk 3 "Letter B.",
             Attachment.mk 4 "Letter C."])] ∧
    EB2.extractEB2 ("(2) Letter A, Attachment 3 - Letter B, Attachment 4 - Letter C.") =
      [("", [Attachment.mk 2 "Letter A.", Attachment.mk 3 "Letter B.",
             Attachment.mk 4 "Letter C."])] ∧
    (∀ p ∈ EB1.extractEB1 ("(2) Letter A, Attachment 3 - Letter B, Attachment 4 - Letter C."),
      ∀ a ∈ p.2, JS.containsSub (("Attachment").data) a.desc.data = false) ∧
    (∀ p ∈ EB2.extractEB2 ("(2) Letter A, Attachment 3 - Letter B, Attachment 4 - Letter C."),
      ∀ a ∈ p.2, JS.containsSub (("Attachment").data) a.desc.data = false) ∧
    (∀ (E : Rx.EmbPat) (s before ds after : List Char),
      Rx.scanPos (Rx.embMatchAt E) s = some (before, (ds, after)) →
      Rx.splitEmbedded E s = before :: ds :: Rx.splitEmbeddedAux E s.length after) ∧
    (∀ (st : EB2.St) (trimmed : List Char) (num : Nat) (desc0 url0 before ds after : List Char),
      Rx.scanPos (Rx.embMatchAt EB2.embP) (Rx.stripFinalComma (JS.trim desc0)) =
        some (before, (ds, after)) →
      EB2.enumItems st trimmed num desc0 url0 =
        (((List.range ((Rx.splitEmbedded EB2.embP
              (Rx.stripFinalComma (JS.trim desc0))).length - 1)).filter
            (fun i => i % 2 = 1)).filter
          (fun i => !EB2.skipNum st (JS.digitsToNat ((Rx.splitEmbedded EB2.embP
            (Rx.stripFinalComma (JS.trim desc0))).getD i [])))).map
          (EB2.embItem (Rx.splitEmbedded EB2.embP (Rx.stripFinalComma (JS.trim desc0)))) ++
        [Attachment.mk num (EB2.cleanDescStr (EB2.buildFullDesc
          (Rx.stripCommaWsEnd (JS.trim before))
          (if (JS.trim url0).isEmpty then
            match Rx.availUrlScan Rx.sepEB2 trimmed with
            | some u => u
            | none => JS.trim url0
           else JS.trim url0)))]) ∧
    (∀ (partsAll : List (List Char)) (i : Nat),
      (EB2.embItem partsAll i).num = JS.digitsToNat (partsAll.getD i [])) ∧
    (∀ (partsAll : List (List Char)) (i : Nat) (u rem : List Char), u ≠ [] →
      Rx.availUrlExtract Rx.sepEB2
        (Rx.stripDotWsEnd (Rx.stripCommaWsEnd (JS.trim (partsAll.getD (i + 1) [])))) =
        some (u, rem) →
      (EB2.embItem partsAll i).desc =
        EB2.cleanDescStr (JS.trim rem ++ (", available at ".data) ++ u)) ∧
    (∀ (p1 p2 : List (List Char)) (i : Nat),
      p1.getD i [] = p2.getD i [] → p1.getD (i + 1) [] = p2.getD (i + 1) [] →
      EB2.embItem p1 i = EB2.embItem p2 i) ∧
    (∀ (trimmed : List Char) (num : Nat) (desc0 url0 before ds after : List Char),
      Rx.itemEnumMatch EB1.enumP trimmed = some (num, desc0, url0) →
      Rx.scanPos (Rx.embMatchAt EB1.embEnum) (Rx.stripFinalComma (JS.trim desc0)) =
        some (before, (ds, after)) →
      ((EB1.enumBranch trimmed).getD []).headD (Attachment.mk 0 "") =
        Attachment.mk num (EB1.cleanDescStr (EB1.buildFullDesc
          (EB1.mainMU before).1 (EB1.mainUrlSel trimmed url0 before)))) ∧
    (∀ (trimmed : List Char) (num : Nat) (desc0 url0 before ds after : List Char),
      Rx.itemEnumMatch EB1.enumP trimmed = some (num, desc0, url0) →
      Rx.scanPos (Rx.embMatchAt EB1.embEnum) (Rx.stripFinalComma (JS.trim desc0)) =
        some (before, (ds, after)) →
      ∀ i ∈ (List.range (Rx.splitEmbedded EB1.embEnum
          (Rx.stripFinalComma (JS.trim desc0))).length).filter (fun i => i % 2 = 1),
        (EB1.embFragEU (Rx.splitEmbedded EB1.embEnum
          (Rx.stripFinalComma (JS.trim desc0))) i).1.isEmpty = false →
        EB1.embFragItem (Rx.splitEmbedded EB1.embEnum
          (Rx.stripFinalComma (JS.trim desc0))) i ∈ (EB1.enumBranch trimmed).getD []) := by
  refine ⟨by decide, by decide, by decide, by decide, ?_, ?_, ?_, ?_, ?_, ?_, ?_⟩
  · intro E s before ds after h
    exact splitEmbedded_first E s before ds after h
  · intro st trimmed num desc0 url0 before ds after hscan
    have hget0 : (Rx.splitEmbedded EB2.embP (Rx.stripFinalComma (JS.trim desc0))).getD 0 [] =
        before := by
      rw [splitEmbedded_first EB2.embP _ before ds after hscan]
      rfl
    have hemb : (Rx.scanPos (Rx.embMatchAt EB2.embP)
        (Rx.stripFinalComma (JS.trim desc0))).isSome = true := by
      rw [hscan]
      rfl
    unfold EB2.enumItems
    simp only [hemb, if_true]
    rw [foldl_cond_append_eq
        (fun i => EB2.skipNum st (JS.digitsToNat ((Rx.splitEmbedded EB2.embP
          (Rx.stripFinalComma (JS.trim desc0))).getD i [])))
        (EB2.embItem (Rx.splitEmbedded EB2.embP (Rx.stripFinalComma (JS.trim desc0))))
        ((List.range ((Rx.splitEmbedded EB2.embP
          (Rx.stripFinalComma (JS.trim desc0))).length - 1)).filter (fun i => i % 2 = 1)) []]
    rw [hget0]
    simp
  · intro partsAll i
    rfl
  · intro partsAll i u rem hu hav
    have hne : u.isEmpty = false := by
      cases u with
      | nil => exact absurd rfl hu
      | cons c r => rfl
    unfold EB2.embItem
    simp only [hav, hne, Bool.false_eq_true, if_false]
  · intro p1 p2 i h1 h2
    unfold EB2.embItem
    rw [h1, h2]
  · intro trimmed num desc0 url0 before ds after hm hscan
    have hsplit := splitEmbedded_first EB1.embEnum (Rx.stripFinalComma (JS.trim desc0))
      before ds after hscan
    have hget0 : (Rx.splitEmbedded EB1.embEnum (Rx.stripFinalComma (JS.trim desc0))).getD 0 [] =
        before := by
      rw [hsplit]
      rfl
    have hlen : (Rx.splitEmbedded EB1.embEnum (Rx.stripFinalComma (JS.trim desc0))).length > 1 := by
      rw [hsplit]
      simp
    have hb : EB1.enumBranch trimmed = some (EB1.enumBody trimmed num desc0 url0) := by
      rw [EB1_enumBranch_eq trimmed, hm]
    rw [hb]
    unfold EB1.enumBody
    simp only [Option.getD_some, List.headD_cons]
    rw [if_pos hlen, hget0]
  · intro trimmed num desc0 url0 before ds after hm hscan i hi hcond
    have hsplit := splitEmbedded_first EB1.embEnum (Rx.stripFinalComma (JS.trim desc0))
      before ds after hscan
    have hlen : (Rx.splitEmbedded EB1.embEnum (Rx.stripFinalComma (JS.trim desc0))).length > 1 := by
      rw [hsplit]
      simp
    have hb : EB1.enumBranch trimmed = some (EB1.enumBody trimmed num desc0 url0) := by
      rw [EB1_enumBranch_eq trimmed, hm]
    rw [hb]
    unfold EB1.enumBody
    simp only [Option.getD_some]
    rw [if_pos hlen]
    apply List.mem_cons_of_mem
    exact foldl_cond_append_mem
      (fun j => (EB1.embFragEU (Rx.splitEmbedded EB1.embEnum
        (Rx.stripFinalComma (JS.trim desc0))) j).1.isEmpty)
      (EB1.embFragItem (Rx.splitEmbedded EB1.embEnum (Rx.stripFinalComma (JS.trim desc0))))
      ((List.range (Rx.splitEmbedded EB1.embEnum
        (Rx.stripFinalComma (JS.trim desc0))).length).filter (fun i => i % 2 = 1)) [] i hi hcond

/-- C5 witness: the general chaining facts evaluated at the claim's own
paragraph and at concrete fragment lists — the splitter cut, dialect B's full
item list, a chained citation's own number and own inherited URL, locality in
the fragment slots, and dialect A's leading truncated main citation and
fragment membership. -/
theorem C5_witness :
    Rx.splitEmbedded EB2.embP
        ("Letter A, Attachment 3 - Letter B, Attachment 4 - Letter C".data) =
      ("Letter A".data) :: ("3".data) ::
      Rx.splitEmbeddedAux EB2.embP
        ("Letter A, Attachment 3 - Letter B, Attachment 4 - Letter C".data).length
        ("Letter B, Attachment 4 - Letter C".data) ∧
    EB2.enumItems EB2.initSt
        (JS.trim ("(2) Letter A, Attachment 3 - Letter B, Attachment 4 - Letter C.".data)) 2
        ("Letter A, Attachment 3 - Letter B, Attachment 4 - Letter C".data) [] =
      [Attachment.mk 3 "Letter B.", Attachment.mk 4 "Letter C.",
       Attachment.mk 2 "Letter A."] ∧
    (EB2.embItem [("Main".data), ("3".data),
        ("Letter B, available at: http://b.example".data)] 1).num = 3 ∧
    (EB2.embItem [("Main".data), ("3".data),
        ("Letter B, available at: http://b.example".data)] 1).desc =
      "Letter B, available at http://b.example." ∧
    EB2.embItem [("A".data), ("3".data), ("B".data)] 1 =
      EB2.embItem [("Z".data), ("3".data), ("B".data), ("9".data), ("C".data)] 1 ∧
    ((EB1.enumBranch (JS.trim
        ("(2) Letter A, Attachment 3 - Letter B, Attachment 4 - Letter C.".data))).getD
        []).headD (Attachment.mk 0 "") = Attachment.mk 2 "Letter A." ∧
    Attachment.mk 3 "Letter B." ∈
      (EB1.enumBranch (JS.trim
        ("(2) Letter A, Attachment 3 - Letter B, Attachment 4 - Letter C.".data))).getD [] := by
  refine ⟨?_, ?_, ?_, ?_, ?_, ?_, ?_⟩
  · exact C5_chained_citations.2.2.2.2.1 EB2.embP
      ("Letter A, Attachment 3 - Letter B, Attachment 4 - Letter C".data)
      ("Letter A".data) ("3".data) ("Letter B, Attachment 4 - Letter C".data) (by decide)
  · exact C5_chained_citations.2.2.2.2.2.1 EB2.initSt
      (JS.trim ("(2) Letter A, Attachment 3 - Letter B, Attachment 4 - Letter C.".data)) 2
      ("Letter A, Attachment 3 - Letter B, Attachment 4 - Letter C".data) []
      ("Letter A".data) ("3".data) ("Letter B, Attachment 4 - Letter C".data) (by decide)
  · exact C5_chained_citations.2.2.2.2.2.2.1
      [("Main".data), ("3".data), ("Letter B, available at: http://b.example".data)] 1
  · exact C5_chained_citations.2.2.2.2.2.2.2.1
      [("Main".data), ("3".data), ("Letter B, available at: http://b.example".data)] 1
      ("http://b.example".data) ("Letter B".data) (by decide) (by decide)
  · exact C5_chained_citations.2.2.2.2.2.2.2.2.1
      [("A".data), ("3".data), ("B".data)]
      [("Z".data), ("3".data), ("B".data), ("9".data), ("C".data)] 1 (by decide) (by decide)
  · exact C5_chained_citations.2.2.2.2.2.2.2.2.2.1
      (JS.trim ("(2) Letter A, Attachment 3 - Letter B, Attachment 4 - Letter C.".data)) 2
      ("Letter A, Attachment 3 - Letter B, Attachment 4 - Letter C".data) []
      ("Letter A".data) ("3".data) ("Letter B, Attachment 4 - Letter C".data)
      (by decide) (by decide)
  · exact C5_chained_citations.2.2.2.2.2.2.2.2.2.2
      (JS.trim ("(2) Letter A, Attachment 3 - Letter B, Attachment 4 - Letter C.".data)) 2
      ("Letter A, Attachment 3 - Letter B, Attachment 4 - Letter C".data) []
      ("Letter A".data) ("3".data) ("Letter B, Attachment 4 - Letter C".data)
      (by decide) (by decide) 1 (by decide) (by decide)

/-- C4 counterexample: the claim promises that a stored description ending in
a URL carries no trailing period, and that the concrete diploma input yields
the pre-section item without a trailing period.  Dialect B's cleaner appends
a period even after a URL: on the very input named by the claim, extractEB2
stores the description with a terminal period after the URL (stripping that
period leaves a string that ends in a URL by the code's own test). -/
theorem C4_counterexample :
    EB2.extractEB2 ("(3) Diploma from State University, available at: http://example.edu/diploma") =
      [("", [Attachment.mk 3
        "Diploma from State University, available at http://example.edu/diploma."])] ∧
    ("Diploma from State University, available at http://example.edu/diploma.").data =
      ("Diploma from State University, available at http://example.edu/diploma").data ++ ['.'] ∧
    Rx.endsUrlTest (("Diploma from State University, available at http://example.edu/diploma").data) =
      true := by
  refine ⟨by decide, by decide, by decide⟩

/-- Helper: the first retained character after dropWhile fails the test. -/
theorem dropWhile_head_not {α : Type} (p : α → Bool) :
    ∀ (l : List α) (x : α) (xs : List α), l.dropWhile p = x :: xs → p x = false := by
  intro l
  induction l with
  | nil => intro x xs h; simp [List.dropWhile] at h
  | cons a rest ih =>
    intro x xs h
    by_cases ha : p a
    · rw [List.dropWhile_cons_of_pos ha] at h
      exact ih x xs h
    · rw [List.dropWhile_cons_of_neg ha] at h
      cases h
      exact Bool.of_not_eq_true ha

/-- Helper: stripTrailPunct never leaves a trailing period. -/
theorem stripTrailPunct_no_dot (s : List Char) :
    JS.endsWithChar '.' (Rx.stripTrailPunct s) = false := by
  unfold Rx.stripTrailPunct JS.endsWithChar
  rw [List.reverse_reverse]
  cases h : s.reverse.dropWhile (fun c => JS.isSpace c || c = '.' || c = ',' || c = ';') with
  | nil => rfl
  | cons x xs =>
    have hx := dropWhile_head_not _ _ _ _ h
    simp only [Bool.or_eq_false_iff, decide_eq_false_iff_not] at hx
    simp [hx.1.1.2]

/-- C4 amended: dialect A's cleaner behaves as claimed — a description whose
normalised form ends in a URL is returned unchanged (no period appended), and
any other nonempty result ends in exactly one terminal period, never doubled;
the concrete diploma scenario holds under dialect A.  (Dialect B's cleaner,
per the counterexample, always appends a terminal period, URL or not.) -/
theorem C4_amended_cleaner :
    (∀ raw, Rx.endsUrlTest (EB1.cleanDescCore raw) = true →
      EB1.cleanDesc raw = EB1.cleanDescCore raw) ∧
    (∀ raw, Rx.endsUrlTest (EB1.cleanDescCore raw) = false →
      EB1.cleanDesc raw = [] ∨
      ∃ d, EB1.cleanDesc raw = d ++ ['.'] ∧ JS.endsWithChar '.' d = false) ∧
    EB1.extractEB1 ("(3) Diploma from State University, available at: http://example.edu/diploma") =
      [("", [Attachment.mk 3
        "Diploma from State University, available at http://example.edu/diploma"])] := by
  refine ⟨?_, ?_, by decide⟩
  · intro raw h
    simp [EB1.cleanDesc, h]
  · intro raw h
    simp only [EB1.cleanDesc, h, if_false, Bool.false_eq_true]
    cases he : (Rx.stripTrailPunct (Rx.stripCommaDashEnd (EB1.cleanDescCore raw))).isEmpty
    · right
      refine ⟨Rx.stripTrailPunct (Rx.stripCommaDashEnd (EB1.cleanDescCore raw)), by simp [he], ?_⟩
      exact stripTrailPunct_no_dot _
    · left
      simp [he]
      simpa using he

/-- C4 witness: the amended cleaner facts evaluated at concrete inputs. -/
theorem C4_witness :
    EB1.cleanDesc (("x, available at http://a").data) =
      EB1.cleanDescCore (("x, available at http://a").data) ∧
    (EB1.cleanDesc (("hello").data) = [] ∨
      ∃ d, EB1.cleanDesc (("hello").data) = d ++ ['.'] ∧ JS.endsWithChar '.' d = false) := by
  exact ⟨C4_amended_cleaner.1 (("x, available at http://a").data) (by decide),
    C4_amended_cleaner.2.1 (("hello").data) (by decide)⟩

/-- C10: the POST handler of the extract route defaults to dialect A — for a
valid .docx upload, extractEB1 handles every value of the form field "type"
other than the exact string "eb2" (including a missing field), and extractEB2
handles exactly the value "eb2". -/
theorem C10_dialect_selector :
    ∀ (f : Route.FileData) (ty : Option String),
      JS.endsWithLit ((".docx").data) f.name.data = true →
      (ty ≠ some "eb2" →
        Route.POST (some f) ty = Route.ExtractResponse.ok (EB1.extractEB1 f.text) f.name) ∧
      Route.POST (some f) (some "eb2") =
        Route.ExtractResponse.ok (EB2.extractEB2 f.text) f.name := by
  intro f ty hdocx
  constructor
  · intro hne
    simp [Route.POST, hdocx, hne]
  · simp [Route.POST, hdocx]

/-- C10 witness: a concrete .docx request with a missing type field runs
extractEB1, and one with type "eb2" runs extractEB2. -/
theorem C10_witness :
    Route.POST (some (Route.FileData.mk "x.docx" "(1) A.")) none =
      Route.ExtractResponse.ok (EB1.extractEB1 ("(1) A.")) "x.docx" ∧
    Route.POST (some (Route.FileData.mk "x.docx" "(1) A.")) (some "eb2") =
      Route.ExtractResponse.ok (EB2.extractEB2 ("(1) A.")) "x.docx" := by
  refine ⟨(C10_dialect_selector (Route.FileData.mk "x.docx" "(1) A.") none (by decide)).1
      (by simp),
    (C10_dialect_selector (Route.FileData.mk "x.docx" "(1) A.") none (by decide)).2⟩

/-- C9: both extractors are deterministic pure functions of the input text.
The only module-level mutable state is the lastIndex of the global regexes:
eb1 only ever reads it, eb2 resets it before and after every use, so running
an extractor a second time on the same text — from whatever module state the
first run left — produces the identical result and the identical state; the
exported functions are the runs from the module-load state. -/
theorem C9_deterministic :
    ∀ (t : String) (s : Nat) (m : Nat × Nat),
      EB1.extractWithState ((EB1.extractWithState s t.data).2) t.data =
        EB1.extractWithState s t.data ∧
      EB2.extractWithState ((EB2.extractWithState m t.data).2) t.data =
        EB2.extractWithState m t.data ∧
      EB1.extractEB1 t = (EB1.extractWithState 0 t.data).1 ∧
      EB2.extractEB2 t = (EB2.extractWithState (0, 0) t.data).1 := by
  intro t s m
  refine ⟨rfl, ?_, rfl, rfl⟩
  unfold EB2.extractWithState
  cases h : EB2.runTouchesEmb m.1 t.data <;> simp [h]

/-- C1 counterexample: dialect A can place the same attachment number in two
different sections — with a citation numbered 1 before any header and another
citation numbered 1 inside the section "EVIDENCE X", the number 1 appears in
the item lists of both the pre-section bucket and the section, so the
cross-dialect uniqueness claim fails. -/
theorem C1_counterexample :
    EB1.extractEB1 ("(1) A.\nEVIDENCE X\n(1) B.") =
      [("", [Attachment.mk 1 "A."]), ("EVIDENCE X", [Attachment.mk 1 "B."])] ∧
    ¬ List.Pairwise disjNums (EB1.extractEB1 ("(1) A.\nEVIDENCE X\n(1) B.")) := by
  refine ⟨by decide, by decide⟩

/-- C2 counterexample: dialect B does not resolve duplicates by the "best"
policy.  Inside the section "II. S" the number 5 is first cited without a URL
and later with a URL-bearing description; the final output keeps the first,
URL-free description, while the claim requires the URL-bearing one to win
regardless of encounter order. -/
theorem C2_counterexample :
    EB2.extractEB2 ("II. S\n(5) Alpha.\n(5) Beta, available at: http://x") =
      [("II. S", [Attachment.mk 5 "Alpha."])] ∧
    EB1.hasHttp "Alpha." = false ∧
    EB1.hasHttp "Beta, available at http://x." = true := by
  refine ⟨by decide, by decide, by decide⟩

/-- C3 counterexample: dialect A can store an item with an empty description.
On the degenerate input "(5) ." the captured description "." cleans to the
empty string, which the enumeration branch stores and the final pass keeps,
violating the no-empty-desc invariant. -/
theorem C3_counterexample :
    EB1.extractEB1 ("(5) .") = [("", [Attachment.mk 5 ""])] ∧
    (Attachment.mk 5 "") ∈ (EB1.extractEB1 ("(5) .")).flatMap Prod.snd := by
  refine ⟨by decide, by decide⟩

/-- C6 counterexample: dialect B accepts a heading that ends in a page-range
parenthetical.  The line "II. Awards (Pages 17-26)" matches the dialect-B
header grammar, contains no CONCLUSION, and ends in a page-range
parenthetical (it passes dialect A's own table-of-contents test), yet
extractEB2 installs it as a section header. -/
theorem C6_counterexample :
    EB2.sectionRx (("II. Awards (Pages 17-26)").data) = true ∧
    EB2.hasConclusion (("II. Awards (Pages 17-26)").data) = false ∧
    EB1.tocLineTest (("II. Awards (Pages 17-26)").data) = true ∧
    EB2.extractEB2 ("II. Awards (Pages 17-26)\n(1) X.") =
      [("II. AWARDS (PAGES 17-26)", [Attachment.mk 1 "X."])] := by
  refine ⟨by decide, by decide, by decide, by decide⟩

/-- C7 counterexample: the dialect-B extractor imported by the route emits
sections in first-encounter order, not Roman-numeral order: with headings
encountered as "II. Extraordinary Ability" then "I. Introduction", the output
lists the section derived from "II." first (and its pronoun normalisation has
rewritten "I. Introduction" to "PETITIONER. INTRODUCTION"), contradicting the
claimed ordering. -/
theorem C7_counterexample :
    EB2.extractEB2 ("II. Extraordinary Ability\n(1) A.\nI. Introduction\n(2) B.") =
      [("II. EXTRAORDINARY ABILITY", [Attachment.mk 1 "A."]),
       ("PETITIONER. INTRODUCTION", [Attachment.mk 2 "B."])] := by
  decide

/-- Helper: pushing items into the current section changes no section keys. -/
theorem EB1_pushCur_keys (st : EB1.St) (items : List Attachment)
    (h : st.currentSection ∈ JS.akeys st.groups) :
    JS.akeys (EB1.pushCur st items).groups = JS.akeys st.groups ∧
    (EB1.pushCur st items).currentSection = st.currentSection :=
  ⟨JS.akeys_aset_of_mem _ _ _ h, rfl⟩

/-- Helper: a non-header paragraph changes neither the section keys nor the
current section of the eb1 state. -/
theorem EB1_step_nonheader (seeIdx : Nat) (st : EB1.St) (para : List Char)
    (hmem : st.currentSection ∈ JS.akeys st.groups)
    (hh : EB1.isHeader (JS.trim para) = false) :
    JS.akeys (EB1.step seeIdx st para).groups = JS.akeys st.groups ∧
    (EB1.step seeIdx st para).currentSection = st.currentSection := by
  unfold EB1.step
  cases h0 : (JS.trim para).isEmpty with
  | true => simp [h0]
  | false =>
    simp only [h0, hh, Bool.false_eq_true, if_false]
    cases hab : EB1.attachmentBranch (JS.trim para) with
    | some item => exact EB1_pushCur_keys st [item] hmem
    | none =>
      simp only
      cases hsm : EB1.seeMatchAllFrom seeIdx (JS.trim para) with
      | cons a as =>
        simp only
        cases hp : (a :: as).flatMap EB1.seeProcessOne with
        | nil => exact ⟨rfl, rfl⟩
        | cons b bs => exact EB1_pushCur_keys st (b :: bs) hmem
      | nil =>
        simp only
        cases henum : EB1.enumBranch (JS.trim para) with
        | some items => exact EB1_pushCur_keys st items hmem
        | none => exact ⟨rfl, rfl⟩

/-- Helper: assigning one item changes neither the section keys nor the
current section of the eb2 state. -/
theorem EB2_addItem_pres (st : EB2.St) (it : Attachment)
    (h : ∀ c, st.currentSec = some c → c ∈ JS.akeys st.bySec) :
    JS.akeys (EB2.addItem st it).bySec = JS.akeys st.bySec ∧
    (EB2.addItem st it).currentSec = st.currentSec := by
  unfold EB2.addItem
  cases hc : st.currentSec with
  | none =>
    cases hg : (JS.alookup it.num st.seenGlobally).isNone <;> simp [hg, hc]
  | some c =>
    cases hguard : ((JS.alookup it.num st.seenGlobally).isNone
        || (JS.alookup it.num st.preSectionItems).isSome) with
    | true =>
      simp only [hguard, if_true]
      exact ⟨JS.akeys_aset_of_mem _ _ _ (h c hc), by trivial⟩
    | false => simp [hguard, hc]

/-- Helper: assignment of a whole item list preserves keys and section. -/
theorem EB2_foldl_addItem_pres :
    ∀ (items : List Attachment) (st : EB2.St),
      (∀ c, st.currentSec = some c → c ∈ JS.akeys st.bySec) →
      JS.akeys ((items.foldl EB2.addItem st).bySec) = JS.akeys st.bySec ∧
      (items.foldl EB2.addItem st).currentSec = st.currentSec := by
  intro items
  induction items with
  | nil => intro st h; exact ⟨rfl, rfl⟩
  | cons it rest ih =>
    intro st h
    have h1 := EB2_addItem_pres st it h
    have h2 : ∀ c, (EB2.addItem st it).currentSec = some c →
        c ∈ JS.akeys (EB2.addItem st it).bySec := by
      rw [h1.1, h1.2]; exact h
    have h3 := ih (EB2.addItem st it) h2
    rw [List.foldl_cons]
    exact ⟨h3.1.trans h1.1, h3.2.trans h1.2⟩

/-- C6 amended: dialect A never accepts a candidate header that contains
CONCLUSION or ends in a page-range parenthetical — such a paragraph leaves
both the current section and the set of sections untouched.  Dialect B
rejects CONCLUSION lines and lines ending in a bare page number the same
way, but (per the counterexample) does not test for page-range
parentheticals. -/
theorem C6_amended_header_exclusion :
    (∀ s, EB1.hasConclusion s = true → EB1.isHeader s = false) ∧
    (∀ s, EB1.tocLineTest s = true → EB1.isHeader s = false) ∧
    (∀ (seeIdx : Nat) (st : EB1.St) (para : List Char),
      st.currentSection ∈ JS.akeys st.groups →
      (EB1.hasConclusion (JS.trim para) || EB1.tocLineTest (JS.trim para)) = true →
      JS.akeys (EB1.step seeIdx st para).groups = JS.akeys st.groups ∧
      (EB1.step seeIdx st para).currentSection = st.currentSection) ∧
    (∀ (seeIdx : Nat) (st : EB2.St) (para : List Char),
      (∀ c, st.currentSec = some c → c ∈ JS.akeys st.bySec) →
      (EB2.hasConclusion (JS.trim para) || EB2.tocNumTest (JS.trim para)) = true →
      JS.akeys (EB2.step seeIdx st para).bySec = JS.akeys st.bySec ∧
      (EB2.step seeIdx st para).currentSec = st.currentSec) := by
  refine ⟨?_, ?_, ?_, ?_⟩
  · intro s h; simp [EB1.isHeader, h]
  · intro s h; simp [EB1.isHeader, h]
  · intro seeIdx st para hmem hct
    have hh : EB1.isHeader (JS.trim para) = false := by
      rcases Bool.or_eq_true_iff.mp hct with h | h <;> simp [EB1.isHeader, h]
    exact EB1_step_nonheader seeIdx st para hmem hh
  · intro seeIdx st para hmem hct
    unfold EB2.step
    cases h0 : (JS.trim para).isEmpty with
    | true => simp [h0]
    | false =>
      simp only [h0, Bool.false_eq_true, if_false]
      rcases Bool.or_eq_true_iff.mp hct with h | h
      · have hcond : (EB2.sectionRx (JS.trim para) && !EB2.hasConclusion (JS.trim para)) = false := by
          simp [h]
        simp only [hcond, Bool.false_eq_true, if_false]
        exact EB2_foldl_addItem_pres _ st hmem
      · cases hcond : (EB2.sectionRx (JS.trim para) && !EB2.hasConclusion (JS.trim para)) with
        | true => simp [h]
        | false =>
          simp only [Bool.false_eq_true, if_false]
          exact EB2_foldl_addItem_pres _ st hmem

/-- C6 witness: a CONCLUSION line and a page-range line evaluated through the
amended facts at a concrete state. -/
theorem C6_witness :
    EB1.isHeader (("EVIDENCE AND CONCLUSION").data) = false ∧
    EB1.isHeader (("EVIDENCE OF AWARDS (Pages 17-26)").data) = false ∧
    JS.akeys (EB1.step 0 EB1.initSt (("EVIDENCE AND CONCLUSION").data)).groups =
      JS.akeys EB1.initSt.groups ∧
    JS.akeys (EB2.step 0 EB2.initSt (("II. Intro 7").data)).bySec =
      JS.akeys EB2.initSt.bySec := by
  refine ⟨C6_amended_header_exclusion.1 _ (by decide),
    C6_amended_header_exclusion.2.1 _ (by decide),
    (C6_amended_header_exclusion.2.2.1 0 EB1.initSt (("EVIDENCE AND CONCLUSION").data)
      (by decide) (by decide)).1,
    (C6_amended_header_exclusion.2.2.2 0 EB2.initSt (("II. Intro 7").data)
      (by intro c hc; cases hc) (by decide)).1⟩

/-! ## C2: the dedup "best" policy of dialect A -/

theorem betterB_iff (cand cur : String) :
    betterB cand cur = true ↔ prefLt (urlRank cur) (urlRank cand) := by
  cases h1 : EB1.hasHttp cand <;> cases h2 : EB1.hasHttp cur <;>
    simp [betterB, prefLt, urlRank, h1, h2] <;> omega

theorem prefLt_trans {a b c : Nat × Nat} (h1 : prefLt a b) (h2 : prefLt b c) : prefLt a c := by
  unfold prefLt at h1 h2 ⊢; omega

theorem prefLt_irrefl (a : Nat × Nat) : ¬ prefLt a a := by
  unfold prefLt; omega

theorem prefLt_le_lt {a b c : Nat × Nat} (h1 : ¬ prefLt a b) (h2 : prefLt a c) : prefLt b c := by
  unfold prefLt at h1 h2 ⊢; omega

theorem prefLt_le_lt_asymm {a b c : Nat × Nat} (h1 : ¬ prefLt a b) (h2 : prefLt a c) :
    ¬ prefLt c b := by
  unfold prefLt at h1 h2 ⊢; omega

theorem prefLt_bottom (r : Nat × Nat) : ¬ prefLt r (0, 0) := by
  unfold prefLt; omega

theorem eq_bottom_of_not_prefLt {r : Nat × Nat} (h : ¬ prefLt (0, 0) r) : r = (0, 0) := by
  unfold prefLt at h
  have h1 : r.1 = 0 ∧ r.2 = 0 := by omega
  exact Prod.ext h1.1 h1.2

theorem string_empty_of_length_zero {s : String} (h : s.length = 0) : s = "" := by
  cases s with
  | mk data => simp [String.length] at h; simp [h]

theorem urlRank_empty : urlRank "" = (0, 0) := by decide

theorem empty_of_urlRank_bottom {c : String} (h : urlRank c = (0, 0)) : c = "" := by
  unfold urlRank at h
  have h2 : c.length = 0 := congrArg Prod.snd h
  exact string_empty_of_length_zero h2

theorem bottom_prefLt_of_ne_empty {c : String} (h : c ≠ "") : prefLt (0, 0) (urlRank c) := by
  have hlen : c.length ≠ 0 := fun h0 => h (string_empty_of_length_zero h0)
  unfold urlRank prefLt
  cases hh : EB1.hasHttp c <;> simp [hh] <;> omega

theorem firstBest_singleton (cand : String) : firstBest [cand] cand := by
  refine ⟨0, rfl, ?_, ?_⟩
  · intro j c hj _; omega
  · intro c hc
    simp at hc
    subst hc
    exact prefLt_irrefl _

theorem firstBest_keep {l : List String} {d cand : String} (h : firstBest l d)
    (hnb : ¬ prefLt (urlRank d) (urlRank cand)) : firstBest (l ++ [cand]) d := by
  obtain ⟨k, hk, hlt, hmax⟩ := h
  have hklen : k < l.length := (List.get?_eq_some.mp hk).1
  refine ⟨k, ?_, ?_, ?_⟩
  · rw [List.get?_append hklen]; exact hk
  · intro j c hj hc
    rw [List.get?_append (lt_trans hj hklen)] at hc
    exact hlt j c hj hc
  · intro c hc
    rcases List.mem_append.mp hc with h1 | h1
    · exact hmax c h1
    · simp at h1; subst h1; exact hnb

theorem firstBest_replace {l : List String} {d cand : String} (h : firstBest l d)
    (hlt2 : prefLt (urlRank d) (urlRank cand)) : firstBest (l ++ [cand]) cand := by
  obtain ⟨k, hk, hlt, hmax⟩ := h
  refine ⟨l.length, List.get?_concat_length l cand, ?_, ?_⟩
  · intro j c hj hc
    rw [List.get?_append hj] at hc
    exact prefLt_le_lt (hmax c (List.get?_mem hc)) hlt2
  · intro c hc
    rcases List.mem_append.mp hc with h1 | h1
    · exact prefLt_le_lt_asymm (hmax c h1) hlt2
    · simp at h1; subst h1; exact prefLt_irrefl _

theorem firstBest_all_empty {l : List String} (h : firstBest l "") : ∀ c ∈ l, c = "" := by
  obtain ⟨_, _, _, hmax⟩ := h
  intro c hc
  have := hmax c hc
  rw [urlRank_empty] at this
  exact empty_of_urlRank_bottom (eq_bottom_of_not_prefLt this)

theorem firstBest_empty_replace {l : List String} (cand : String) (h : firstBest l "") :
    firstBest (l ++ [cand]) cand := by
  have hall := firstBest_all_empty h
  by_cases hcand : cand = ""
  · subst hcand
    obtain ⟨k, hk, _, _⟩ := h
    refine ⟨0, ?_, ?_, ?_⟩
    · cases l with
      | nil => simp at hk
      | cons x xs =>
        have hx : x = "" := hall x (by simp)
        simp [hx]
    · intro j c hj _; omega
    · intro c hc
      rcases List.mem_append.mp hc with h1 | h1
      · rw [hall c h1, urlRank_empty]; exact prefLt_irrefl _
      · simp at h1; subst h1; exact prefLt_irrefl _
  · refine ⟨l.length, List.get?_concat_length l cand, ?_, ?_⟩
    · intro j c hj hc
      rw [List.get?_append hj] at hc
      rw [hall c (List.get?_mem hc), urlRank_empty]
      exact bottom_prefLt_of_ne_empty hcand
    · intro c hc
      rcases List.mem_append.mp hc with h1 | h1
      · rw [hall c h1, urlRank_empty]
        exact prefLt_bottom _
      · simp at h1; subst h1; exact prefLt_irrefl _

theorem descsFor_append (num : Nat) (processed : List Attachment) (a : Attachment) :
    descsFor num (processed ++ [a]) =
      descsFor num processed ++ (if a.num = num then [a.desc] else []) := by
  unfold descsFor
  rw [List.filter_append, List.map_append]
  by_cases h : a.num = num <;> simp [h]

theorem JS.akeys_aset_not_mem {κ α : Type} [DecidableEq κ] (k : κ) (v : α) :
    ∀ l : List (κ × α), k ∉ JS.akeys l → JS.akeys (JS.aset k v l) = JS.akeys l ++ [k] := by
  intro l
  induction l with
  | nil => intro _; simp [JS.aset, JS.akeys]
  | cons p rest ih =>
    intro h
    have hp : ¬(p.1 = k) := by
      intro he; exact h (by simp [JS.akeys, he])
    have hr : k ∉ JS.akeys rest := fun hm => h (by simp [JS.akeys] at hm ⊢; exact Or.inr hm)
    have ihr := ih hr
    simp only [JS.akeys] at ihr
    simp [JS.aset, hp, JS.akeys, ihr]

theorem JS.nodup_akeys_aset {κ α : Type} [DecidableEq κ] (k : κ) (v : α)
    (l : List (κ × α)) (h : (JS.akeys l).Nodup) : (JS.akeys (JS.aset k v l)).Nodup := by
  by_cases hm : k ∈ JS.akeys l
  · rw [JS.akeys_aset_of_mem k v l hm]; exact h
  · rw [JS.akeys_aset_not_mem k v l hm]
    simp [List.nodup_append, h, hm]

theorem JS.alookup_of_mem_nodup {κ α : Type} [DecidableEq κ] (k : κ) (v : α) :
    ∀ l : List (κ × α), (JS.akeys l).Nodup → (k, v) ∈ l → JS.alookup k l = some v := by
  intro l
  induction l with
  | nil => intro _ h; simp at h
  | cons p rest ih =>
    intro hnd hm
    simp only [JS.akeys, List.map_cons, List.nodup_cons] at hnd
    rcases List.mem_cons.mp hm with h1 | h1
    · rw [← h1]; simp [JS.alookup]
    · have hk : k ∈ List.map Prod.fst rest := List.mem_map.mpr ⟨(k, v), h1, rfl⟩
      have hp : ¬(p.1 = k) := fun he => hnd.1 (by rw [he]; exact hk)
      simp only [JS.alookup, hp, if_false]
      exact ih hnd.2 h1

/-- dedupeStep either rewrites the entry of the new pair's number or leaves
the accumulator alone. -/
theorem dedupeStep_cases (b : List (Nat × String)) (a : Attachment) :
    EB1.dedupeStep b a = JS.aset a.num a.desc b ∨ EB1.dedupeStep b a = b := by
  unfold EB1.dedupeStep
  cases JS.alookup a.num b with
  | none => exact Or.inl rfl
  | some cur =>
    by_cases hc : cur = ""
    · simp [hc]
    · simp only [hc, if_false]
      split
      · exact Or.inl rfl
      · exact Or.inr rfl

theorem dedupe_fold_keys_nodup :
    ∀ (pairs : List Attachment) (b : List (Nat × String)),
      (JS.akeys b).Nodup → (JS.akeys (pairs.foldl EB1.dedupeStep b)).Nodup := by
  intro pairs
  induction pairs with
  | nil => intro b h; exact h
  | cons a rest ih =>
    intro b h
    rw [List.foldl_cons]
    apply ih
    rcases dedupeStep_cases b a with h1 | h1 <;> rw [h1]
    · exact JS.nodup_akeys_aset _ _ _ h
    · exact h

/-- dedupeStep always leaves an entry for the processed pair's number. -/
theorem dedupeStep_lookup_self (b : List (Nat × String)) (a : Attachment) :
    (JS.alookup a.num (EB1.dedupeStep b a)).isSome = true := by
  unfold EB1.dedupeStep
  cases hb : JS.alookup a.num b with
  | none => simp [JS.alookup_aset_self]
  | some cur =>
    by_cases hc : cur = ""
    · simp [hc, JS.alookup_aset_self]
    · simp only [hc, if_false]
      split
      · simp [JS.alookup_aset_self]
      · simp [hb]

/-- The invariant of dedupeBest's fold: every stored description is the first
maximum of the processed candidates for its number, and absent numbers have
no processed candidates. -/
theorem dedupe_fold_inv :
    ∀ (pairs : List Attachment) (b : List (Nat × String)) (processed : List Attachment),
      (∀ num d, JS.alookup num b = some d → firstBest (descsFor num processed) d) →
      (∀ num, JS.alookup num b = none → descsFor num processed = []) →
      (∀ num d, JS.alookup num (pairs.foldl EB1.dedupeStep b) = some d →
          firstBest (descsFor num (processed ++ pairs)) d) ∧
      (∀ num, JS.alookup num (pairs.foldl EB1.dedupeStep b) = none →
          descsFor num (processed ++ pairs) = []) := by
  intro pairs
  induction pairs with
  | nil =>
    intro b processed h1 h2
    constructor
    · intro num d hl; simpa using h1 num d hl
    · intro num hl; simpa using h2 num hl
  | cons a rest ih =>
    intro b processed h1 h2
    have H1 : ∀ num d, JS.alookup num (EB1.dedupeStep b a) = some d →
        firstBest (descsFor num (processed ++ [a])) d := by
      intro num d hl
      rw [descsFor_append]
      by_cases hnum : a.num = num
      · subst hnum
        simp only [if_pos rfl]
        unfold EB1.dedupeStep at hl
        cases hb : JS.alookup a.num b with
        | none =>
          rw [hb] at hl
          simp only at hl
          rw [JS.alookup_aset_self] at hl
          cases hl
          rw [h2 a.num hb]
          simpa using firstBest_singleton a.desc
        | some cur =>
          rw [hb] at hl
          simp only at hl
          by_cases hcur : cur = ""
          · rw [if_pos hcur] at hl
            rw [JS.alookup_aset_self] at hl
            cases hl
            subst hcur
            exact firstBest_empty_replace _ (h1 a.num "" hb)
          · rw [if_neg hcur] at hl
            have hl2 : JS.alookup a.num
                (if betterB a.desc cur then JS.aset a.num a.desc b else b) = some d := hl
            cases hbet : betterB a.desc cur with
            | true =>
              rw [hbet, if_pos rfl] at hl2
              rw [JS.alookup_aset_self] at hl2
              cases hl2
              exact firstBest_replace (h1 a.num cur hb) (betterB_iff _ _ |>.mp hbet)
            | false =>
              rw [hbet] at hl2
              simp only [Bool.false_eq_true, if_false] at hl2
              rw [hb] at hl2
              cases hl2
              refine firstBest_keep (h1 a.num d hb) ?_
              intro hpl
              rw [← betterB_iff] at hpl
              rw [hpl] at hbet
              cases hbet
      · rw [if_neg hnum]
        simp only [List.append_nil]
        have hne : num ≠ a.num := fun h => hnum h.symm
        have hhl : JS.alookup num b = some d := by
          rcases dedupeStep_cases b a with hcase | hcase
          · rw [hcase, JS.alookup_aset_ne a.num num a.desc hne] at hl; exact hl
          · rw [hcase] at hl; exact hl
        exact h1 num d hhl
    have H2 : ∀ num, JS.alookup num (EB1.dedupeStep b a) = none →
        descsFor num (processed ++ [a]) = [] := by
      intro num hl
      rw [descsFor_append]
      by_cases hnum : a.num = num
      · exfalso
        subst hnum
        have := dedupeStep_lookup_self b a
        rw [hl] at this
        cases this
      · rw [if_neg hnum]
        simp only [List.append_nil]
        have hne : num ≠ a.num := fun h => hnum h.symm
        have hhl : JS.alookup num b = none := by
          rcases dedupeStep_cases b a with hcase | hcase
          · rw [hcase, JS.alookup_aset_ne a.num num a.desc hne] at hl; exact hl
          · rw [hcase] at hl; exact hl
        exact h2 num hhl
    have hrec := ih (EB1.dedupeStep b a) (processed ++ [a]) H1 H2
    rw [List.foldl_cons]
    constructor
    · intro num d hl
      have := hrec.1 num d hl
      simpa [List.append_assoc] using this
    · intro num hl
      have := hrec.2 num hl
      simpa [List.append_assoc] using this

theorem mem_dedupeBest_lookup (pairs : List Attachment) (num : Nat) (d : String)
    (h : Attachment.mk num d ∈ EB1.dedupeBest pairs) :
    JS.alookup num (pairs.foldl EB1.dedupeStep []) = some d := by
  unfold EB1.dedupeBest at h
  have h2 := (List.perm_insertionSort byNum _).mem_iff.mp h
  obtain ⟨e, he, heq⟩ := List.mem_map.mp h2
  have he2 : e ∈ pairs.foldl EB1.dedupeStep [] :=
    (List.perm_insertionSort _ _).mem_iff.mp he
  injection heq with hq1 hq2
  have hnd := dedupe_fold_keys_nodup pairs [] (by simp [JS.akeys])
  have hmem : (num, d) ∈ pairs.foldl EB1.dedupeStep [] := by
    have hee : e = (num, d) := Prod.ext hq1 hq2
    rw [← hee]; exact he2
  exact JS.alookup_of_mem_nodup num d _ hnd hmem

theorem dedupeBest_firstBest (pairs : List Attachment) (num : Nat) (d : String)
    (h : Attachment.mk num d ∈ EB1.dedupeBest pairs) : firstBest (descsFor num pairs) d := by
  have hl := mem_dedupeBest_lookup pairs num d h
  have hinv := (dedupe_fold_inv pairs [] []
    (by intro n dd hx; simp [JS.alookup] at hx)
    (by intro n _; rfl)).1 num d hl
  simpa using hinv

theorem EB1_step_keys_nodup (seeIdx : Nat) (st : EB1.St) (para : List Char)
    (h : (JS.akeys st.groups).Nodup) :
    (JS.akeys (EB1.step seeIdx st para).groups).Nodup := by
  unfold EB1.step
  cases h0 : (JS.trim para).isEmpty with
  | true => simpa [h0] using h
  | false =>
    simp only [h0, Bool.false_eq_true, if_false]
    by_cases hh : EB1.isHeader (JS.trim para)
    · simp only [hh, if_true]
      by_cases hlk : (JS.alookup (String.mk (EB1.normalizeTitle (JS.trim para))) st.groups).isSome
      · simpa [hlk] using h
      · simp only [hlk, Bool.false_eq_true, if_false]
        exact JS.nodup_akeys_aset _ _ _ h
    · simp only [hh, if_false]
      cases hab : EB1.attachmentBranch (JS.trim para) with
      | some item => exact JS.nodup_akeys_aset _ _ _ h
      | none =>
        simp only
        cases hsm : EB1.seeMatchAllFrom seeIdx (JS.trim para) with
        | cons a as =>
          simp only
          cases hp : (a :: as).flatMap EB1.seeProcessOne with
          | nil => exact h
          | cons b bs => exact JS.nodup_akeys_aset _ _ _ h
        | nil =>
          simp only
          cases henum : EB1.enumBranch (JS.trim para) with
          | some items => exact JS.nodup_akeys_aset _ _ _ h
          | none => exact h

theorem EB1_run_keys_nodup (seeIdx : Nat) :
    ∀ (paras : List (List Char)) (st : EB1.St), (JS.akeys st.groups).Nodup →
      (JS.akeys ((paras.foldl (EB1.step seeIdx) st).groups)).Nodup := by
  intro paras
  induction paras with
  | nil => intro st h; exact h
  | cons p rest ih =>
    intro st h
    rw [List.foldl_cons]
    exact ih _ (EB1_step_keys_nodup seeIdx st p h)

theorem EB1_finalize_fold_mem :
    ∀ (L : List (String × List Attachment)) (acc : GroupedAttachments)
      (x : String × List Attachment),
      x ∈ L.foldl (fun acc p =>
        let d := EB1.dedupeBest p.2
        if d.isEmpty then acc else acc ++ [(p.1, d)]) acc →
      x ∈ acc ∨ ∃ p, p ∈ L ∧ x = (p.1, EB1.dedupeBest p.2) := by
  intro L
  induction L with
  | nil => intro acc x h; exact Or.inl h
  | cons p rest ih =>
    intro acc x h
    rw [List.foldl_cons] at h
    rcases ih _ x h with h1 | h1
    · have h1b : x ∈ (if (EB1.dedupeBest p.2).isEmpty then acc
          else acc ++ [(p.1, EB1.dedupeBest p.2)]) := h1
      by_cases hd : (EB1.dedupeBest p.2).isEmpty
      · rw [if_pos hd] at h1b
        exact Or.inl h1b
      · rw [if_neg hd] at h1b
        rcases List.mem_append.mp h1b with h2 | h2
        · exact Or.inl h2
        · simp at h2
          exact Or.inr ⟨p, List.mem_cons_self p rest, h2⟩
    · obtain ⟨q, hq, hxq⟩ := h1
      exact Or.inr ⟨q, List.mem_cons_of_mem p hq, hxq⟩

theorem EB1_finalize_lookup (groups : List (String × List Attachment))
    (hnd : (JS.akeys groups).Nodup) (sec : String) (items : List Attachment)
    (hm : (sec, items) ∈ EB1.finalize groups) :
    items = EB1.dedupeBest ((JS.alookup sec groups).getD []) := by
  unfold EB1.finalize at hm
  rcases EB1_finalize_fold_mem _ _ _ hm with h1 | h1
  · cases hl : JS.alookup "" groups with
    | none => rw [hl] at h1; simp at h1
    | some l =>
      rw [hl] at h1
      simp only at h1
      by_cases hle : l.isEmpty
      · rw [if_pos hle] at h1; simp at h1
      · rw [if_neg hle] at h1
        have h1b : (sec, items) ∈ (if (EB1.dedupeBest l).isEmpty then ([] : GroupedAttachments)
            else [("", EB1.dedupeBest l)]) := h1
        by_cases hde : (EB1.dedupeBest l).isEmpty
        · rw [if_pos hde] at h1b; simp at h1b
        · rw [if_neg hde] at h1b
          simp at h1b
          rw [h1b.1, hl]
          exact h1b.2
  · obtain ⟨p, hp, hx⟩ := h1
    have hpg : p ∈ groups := List.mem_of_mem_filter hp
    injection hx with hx1 hx2
    have hlk : JS.alookup p.1 groups = some p.2 :=
      JS.alookup_of_mem_nodup p.1 p.2 groups hnd hpg
    rw [hx1, hlk]
    exact hx2

/-- C2 amended: dialect A resolves duplicate numbers by the "best" policy —
the description dedupeBest keeps for a number is the first-encountered
maximum of its candidates under the preference order "URL-bearing beats
URL-free, then strictly longer beats shorter, ties keep the first seen", and
every item of extractEB1's final output is resolved this way from the raw
citations its section accumulated.  (Dialect B, per the counterexample, keeps
the first description seen in a section and drops later duplicates even when
they carry a URL.) -/
theorem C2_amended_best_policy :
    (∀ (pairs : List Attachment) (num : Nat) (d : String),
        Attachment.mk num d ∈ EB1.dedupeBest pairs →
        firstBest (descsFor num pairs) d) ∧
    (∀ (t : String) (sec : String) (items : List Attachment) (a : Attachment),
        (sec, items) ∈ EB1.extractEB1 t → a ∈ items →
        firstBest (descsFor a.num (collectedEB1 t sec)) a.desc) := by
  refine ⟨dedupeBest_firstBest, ?_⟩
  intro t sec items a hm ha
  have hnd : (JS.akeys (((Rx.paragraphs t.data).foldl (EB1.step 0) EB1.initSt).groups)).Nodup :=
    EB1_run_keys_nodup 0 (Rx.paragraphs t.data) EB1.initSt (by simp [JS.akeys, EB1.initSt])
  have hm2 : (sec, items) ∈
      EB1.finalize (((Rx.paragraphs t.data).foldl (EB1.step 0) EB1.initSt).groups) := hm
  have hitems := EB1_finalize_lookup _ hnd sec items hm2
  rw [hitems] at ha
  exact dedupeBest_firstBest _ a.num a.desc ha

/-- C2 witness: the amended policy evaluated at a concrete duplicate pair and
at a concrete two-paragraph document. -/
theorem C2_witness :
    firstBest
      (descsFor 5 [Attachment.mk 5 "Short desc.",
        Attachment.mk 5 "Short desc, available at http://x"])
      "Short desc, available at http://x" ∧
    firstBest
      (descsFor 5 (collectedEB1 ("(5) Short desc.\n(5) Short desc, available at: http://x") ""))
      "Short desc, available at http://x" := by
  constructor
  · exact C2_amended_best_policy.1
      [Attachment.mk 5 "Short desc.", Attachment.mk 5 "Short desc, available at http://x"]
      5 "Short desc, available at http://x" (by decide)
  · exact C2_amended_best_policy.2
      ("(5) Short desc.\n(5) Short desc, available at: http://x") ""
      [Attachment.mk 5 "Short desc, available at http://x"]
      (Attachment.mk 5 "Short desc, available at http://x") (by decide) (by decide)

/-! ## C1 and C3: uniqueness, ordering and nonempty descriptions -/

theorem pairwise_lt_of_le_nodup (l : List Attachment) (h1 : List.Pairwise byNum l)
    (h2 : (l.map Attachment.num).Nodup) :
    List.Pairwise (fun a b => a.num < b.num) l := by
  have hne : List.Pairwise (fun a b : Attachment => a.num ≠ b.num) l :=
    List.pairwise_map.mp h2
  exact (h1.and hne).imp (fun h => lt_of_le_of_ne h.1 h.2)

theorem dedupeBest_nums_nodup (pairs : List Attachment) :
    ((EB1.dedupeBest pairs).map Attachment.num).Nodup := by
  have hdef : EB1.dedupeBest pairs = sortByNum ((entriesAsc (pairs.foldl EB1.dedupeStep [])).map
      (fun e => Attachment.mk e.1 e.2)) := rfl
  rw [hdef]
  have hperm1 : List.Perm
      ((sortByNum ((entriesAsc (pairs.foldl EB1.dedupeStep [])).map
        (fun e => Attachment.mk e.1 e.2))).map Attachment.num)
      (((entriesAsc (pairs.foldl EB1.dedupeStep [])).map
        (fun e => Attachment.mk e.1 e.2)).map Attachment.num) :=
    (List.perm_insertionSort byNum _).map Attachment.num
  apply hperm1.symm.nodup
  rw [List.map_map]
  have hmm : ((fun a : Attachment => a.num) ∘ fun e : Nat × String => Attachment.mk e.1 e.2) =
      Prod.fst := rfl
  rw [hmm]
  have hperm2 : List.Perm ((entriesAsc (pairs.foldl EB1.dedupeStep [])).map Prod.fst)
      ((pairs.foldl EB1.dedupeStep []).map Prod.fst) :=
    (List.perm_insertionSort _ _).map Prod.fst
  apply hperm2.symm.nodup
  exact dedupe_fold_keys_nodup pairs [] (by simp [JS.akeys])

theorem dedupeBest_strict (pairs : List Attachment) :
    List.Pairwise (fun a b => a.num < b.num) (EB1.dedupeBest pairs) := by
  apply pairwise_lt_of_le_nodup
  · exact List.sorted_insertionSort byNum _
  · exact dedupeBest_nums_nodup pairs

/-- The invariant of one finalSeen fold: it keeps only fresh numbers, keeps
them at most once and records everything it keeps. -/
theorem takeNew_fold_spec :
    ∀ (items : List Attachment) (q : List Attachment × List Nat),
      (∀ a ∈ q.1, a.num ∈ q.2) → (q.1.map Attachment.num).Nodup →
      (∀ a ∈ (items.foldl EB2.takeNew q).1, a.num ∈ (items.foldl EB2.takeNew q).2) ∧
      ((items.foldl EB2.takeNew q).1.map Attachment.num).Nodup ∧
      (∀ n ∈ q.2, n ∈ (items.foldl EB2.takeNew q).2) ∧
      (∀ a ∈ (items.foldl EB2.takeNew q).1, a ∈ q.1 ∨ a.num ∉ q.2) := by
  intro items
  induction items with
  | nil =>
    intro q h1 h2
    exact ⟨h1, h2, fun n hn => hn, fun a ha => Or.inl ha⟩
  | cons it rest ih =>
    intro q h1 h2
    rw [List.foldl_cons]
    by_cases hc : q.2.contains it.num = true
    · have hq : EB2.takeNew q it = q := by unfold EB2.takeNew; rw [if_pos hc]
      rw [hq]
      exact ih q h1 h2
    · have hq : EB2.takeNew q it = (q.1 ++ [it], q.2 ++ [it.num]) := by
        unfold EB2.takeNew; rw [if_neg hc]
      rw [hq]
      have hnotin : it.num ∉ q.2 := by simpa using hc
      have h1' : ∀ a ∈ q.1 ++ [it], a.num ∈ q.2 ++ [it.num] := by
        intro a ha
        rcases List.mem_append.mp ha with h | h
        · exact List.mem_append.mpr (Or.inl (h1 a h))
        · simp at h; subst h; simp
      have h2' : ((q.1 ++ [it]).map Attachment.num).Nodup := by
        rw [List.map_append]
        simp only [List.map_cons, List.map_nil]
        rw [List.nodup_append]
        refine ⟨h2, List.nodup_singleton _, ?_⟩
        intro n hn hn2
        simp at hn2
        subst hn2
        obtain ⟨a, ha, hna⟩ := List.mem_map.mp hn
        exact hnotin (hna ▸ h1 a ha)
      have hrec := ih (q.1 ++ [it], q.2 ++ [it.num]) h1' h2'
      refine ⟨hrec.1, hrec.2.1, ?_, ?_⟩
      · intro n hn
        exact hrec.2.2.1 n (List.mem_append.mpr (Or.inl hn))
      · intro a ha
        rcases hrec.2.2.2 a ha with h | h
        · rcases List.mem_append.mp h with hh | hh
          · exact Or.inl hh
          · simp at hh; subst hh; exact Or.inr hnotin
        · exact Or.inr (fun hx => h (List.mem_append.mpr (Or.inl hx)))

theorem takeNew_fold_subset :
    ∀ (items : List Attachment) (q : List Attachment × List Nat) (a : Attachment),
      a ∈ (items.foldl EB2.takeNew q).1 → a ∈ q.1 ∨ a ∈ items := by
  intro items
  induction items with
  | nil => intro q a h; exact Or.inl h
  | cons it rest ih =>
    intro q a h
    rw [List.foldl_cons] at h
    rcases ih _ a h with h1 | h1
    · unfold EB2.takeNew at h1
      by_cases hc : q.2.contains it.num = true
      · rw [if_pos hc] at h1; exact Or.inl h1
      · rw [if_neg hc] at h1
        rcases List.mem_append.mp h1 with h2 | h2
        · exact Or.inl h2
        · simp at h2; subst h2; exact Or.inr (List.mem_cons_self _ _)
    · exact Or.inr (List.mem_cons_of_mem _ h1)

theorem EB2_sections_fold_spec :
    ∀ (L : List (String × List Attachment)) (acc : GroupedAttachments × List Nat),
      (∀ s ∈ acc.1, ∀ a ∈ s.2, a.num ∈ acc.2) →
      List.Pairwise disjNums acc.1 →
      (∀ s ∈ acc.1, List.Pairwise (fun a b => a.num < b.num) s.2) →
      (∀ s ∈ (sectionsFoldEB2 L acc).1, ∀ a ∈ s.2, a.num ∈ (sectionsFoldEB2 L acc).2) ∧
      List.Pairwise disjNums (sectionsFoldEB2 L acc).1 ∧
      (∀ s ∈ (sectionsFoldEB2 L acc).1, List.Pairwise (fun a b => a.num < b.num) s.2) ∧
      (∀ s ∈ (sectionsFoldEB2 L acc).1, ∀ a ∈ s.2,
        (∃ s0 ∈ acc.1, a ∈ s0.2) ∨ ∃ q ∈ L, a ∈ q.2) := by
  intro L
  induction L with
  | nil =>
    intro acc h1 h2 h3
    exact ⟨h1, h2, h3, fun s hs a ha => Or.inl ⟨s, hs, ha⟩⟩
  | cons sp rest ih =>
    intro acc h1 h2 h3
    have hfold : sectionsFoldEB2 (sp :: rest) acc = sectionsFoldEB2 rest
        (let r := sp.2.foldl EB2.takeNew ([], acc.2)
         if r.1.isEmpty then (acc.1, r.2) else (acc.1 ++ [(sp.1, sortByNum r.1)], r.2)) := rfl
    have hspec := takeNew_fold_spec sp.2 ([], acc.2) (by intro a ha; simp at ha)
      (by simp)
    have hsub : ∀ a ∈ (sp.2.foldl EB2.takeNew ([], acc.2)).1, a ∈ sp.2 := by
      intro a ha
      rcases takeNew_fold_subset sp.2 ([], acc.2) a ha with h | h
      · simp at h
      · exact h
    have hfresh : ∀ a ∈ (sp.2.foldl EB2.takeNew ([], acc.2)).1, a.num ∉ acc.2 := by
      intro a ha
      rcases hspec.2.2.2 a ha with h | h
      · simp at h
      · exact h
    by_cases hre : (sp.2.foldl EB2.takeNew ([], acc.2)).1.isEmpty
    · have hacc2 : (let r := sp.2.foldl EB2.takeNew ([], acc.2)
          if r.1.isEmpty then (acc.1, r.2) else (acc.1 ++ [(sp.1, sortByNum r.1)], r.2)) =
          (acc.1, (sp.2.foldl EB2.takeNew ([], acc.2)).2) := by
        simp only [hre, if_true]
      rw [hfold, hacc2]
      have hr := ih (acc.1, (sp.2.foldl EB2.takeNew ([], acc.2)).2)
        (by intro s hs a ha
            exact hspec.2.2.1 a.num (h1 s hs a ha))
        h2 h3
      refine ⟨hr.1, hr.2.1, hr.2.2.1, ?_⟩
      intro s hs a ha
      rcases hr.2.2.2 s hs a ha with h | ⟨q, hq, haq⟩
      · exact Or.inl h
      · exact Or.inr ⟨q, List.mem_cons_of_mem _ hq, haq⟩
    · have hacc2 : (let r := sp.2.foldl EB2.takeNew ([], acc.2)
          if r.1.isEmpty then (acc.1, r.2) else (acc.1 ++ [(sp.1, sortByNum r.1)], r.2)) =
          (acc.1 ++ [(sp.1, sortByNum (sp.2.foldl EB2.takeNew ([], acc.2)).1)],
           (sp.2.foldl EB2.takeNew ([], acc.2)).2) := by
        simp [hre]
      rw [hfold, hacc2]
      have hsortmem : ∀ a, a ∈ sortByNum (sp.2.foldl EB2.takeNew ([], acc.2)).1 ↔
          a ∈ (sp.2.foldl EB2.takeNew ([], acc.2)).1 :=
        fun a => (List.perm_insertionSort byNum _).mem_iff
      have hinv1 : ∀ s ∈ acc.1 ++ [(sp.1, sortByNum (sp.2.foldl EB2.takeNew ([], acc.2)).1)],
          ∀ a ∈ s.2, a.num ∈ (sp.2.foldl EB2.takeNew ([], acc.2)).2 := by
        intro s hs a ha
        rcases List.mem_append.mp hs with h | h
        · exact hspec.2.2.1 a.num (h1 s h a ha)
        · simp at h
          subst h
          exact hspec.1 a ((hsortmem a).mp ha)
      have hinv2 : List.Pairwise disjNums
          (acc.1 ++ [(sp.1, sortByNum (sp.2.foldl EB2.takeNew ([], acc.2)).1)]) := by
        rw [List.pairwise_append]
        refine ⟨h2, List.pairwise_singleton _ _, ?_⟩
        intro s hsacc x hx
        simp at hx
        subst hx
        intro n hn hn2
        obtain ⟨a, ha, hna⟩ := List.mem_map.mp hn
        obtain ⟨b, hb, hnb⟩ := List.mem_map.mp hn2
        have hbm := (hsortmem b).mp hb
        apply hfresh b hbm
        rw [hnb, ← hna]
        exact h1 s hsacc a ha
      have hinv3 : ∀ s ∈ acc.1 ++ [(sp.1, sortByNum (sp.2.foldl EB2.takeNew ([], acc.2)).1)],
          List.Pairwise (fun a b => a.num < b.num) s.2 := by
        intro s hs
        rcases List.mem_append.mp hs with h | h
        · exact h3 s h
        · simp at h
          subst h
          show List.Pairwise (fun a b => a.num < b.num)
            (sortByNum (sp.2.foldl EB2.takeNew ([], acc.2)).1)
          apply pairwise_lt_of_le_nodup (sortByNum (sp.2.foldl EB2.takeNew ([], acc.2)).1)
          · exact List.sorted_insertionSort byNum _
          · exact (((List.perm_insertionSort byNum
              ((sp.2.foldl EB2.takeNew ([], acc.2)).1)).map Attachment.num).symm).nodup hspec.2.1
      have hr := ih (acc.1 ++ [(sp.1, sortByNum (sp.2.foldl EB2.takeNew ([], acc.2)).1)],
        (sp.2.foldl EB2.takeNew ([], acc.2)).2) hinv1 hinv2 hinv3
      refine ⟨hr.1, hr.2.1, hr.2.2.1, ?_⟩
      intro s hs a ha
      rcases hr.2.2.2 s hs a ha with ⟨s0, hs0, has0⟩ | ⟨q, hq, haq⟩
      · rcases List.mem_append.mp hs0 with h | h
        · exact Or.inl ⟨s0, h, has0⟩
        · simp at h
          subst h
          exact Or.inr ⟨sp, List.mem_cons_self _ _, hsub a ((hsortmem a).mp has0)⟩
      · exact Or.inr ⟨q, List.mem_cons_of_mem _ hq, haq⟩

/-- The whole final pass of eb2: sections are pairwise num-disjoint, each
section strictly ascending by num, and every item comes from the pre-section
map or from some collected section. -/
theorem EB2_finalize_spec (pre : List (Nat × Attachment))
    (bySec : List (String × List Attachment)) :
    List.Pairwise disjNums (EB2.finalize pre bySec) ∧
    ∀ s ∈ EB2.finalize pre bySec,
      List.Pairwise (fun a b => a.num < b.num) s.2 ∧
      ∀ a ∈ s.2, (∃ e ∈ pre, a = e.2) ∨ ∃ q ∈ bySec, a ∈ q.2 := by
  have hfin : EB2.finalize pre bySec =
      (sectionsFoldEB2 bySec
        ((if ((entriesAsc pre).foldl (fun p e => EB2.takeNew p e.2)
              (([], []) : List Attachment × List Nat)).1.isEmpty
          then ([] : GroupedAttachments)
          else [("", sortByNum ((entriesAsc pre).foldl (fun p e => EB2.takeNew p e.2)
              (([], []) : List Attachment × List Nat)).1)]),
         ((entriesAsc pre).foldl (fun p e => EB2.takeNew p e.2)
              (([], []) : List Attachment × List Nat)).2)).1 := rfl
  have hmap : ((entriesAsc pre).map Prod.snd).foldl EB2.takeNew
        (([], []) : List Attachment × List Nat) =
      (entriesAsc pre).foldl (fun p e => EB2.takeNew p e.2)
        (([], []) : List Attachment × List Nat) :=
    List.foldl_map Prod.snd EB2.takeNew (entriesAsc pre) ([], [])
  have hQspec := takeNew_fold_spec ((entriesAsc pre).map Prod.snd) ([], [])
    (by intro a ha; simp at ha) (by simp)
  have hQsub := takeNew_fold_subset ((entriesAsc pre).map Prod.snd) ([], [])
  rw [hmap] at hQspec hQsub
  set Q := (entriesAsc pre).foldl (fun p e => EB2.takeNew p e.2)
    (([], []) : List Attachment × List Nat) with hQdef
  have hQpre : ∀ a ∈ Q.1, ∃ e ∈ pre, a = e.2 := by
    intro a ha
    rcases hQsub a ha with h | h
    · simp at h
    · obtain ⟨e, he, hea⟩ := List.mem_map.mp h
      exact ⟨e, ((List.perm_insertionSort _ pre).mem_iff).mp he, hea.symm⟩
  rw [hfin]
  by_cases hE : Q.1.isEmpty
  · have h0 : (if Q.1.isEmpty then ([] : GroupedAttachments)
        else [("", sortByNum Q.1)]) = [] := by rw [if_pos hE]
    rw [h0]
    have hr := EB2_sections_fold_spec bySec (([] : GroupedAttachments), Q.2)
      (by intro s hs; simp at hs) List.Pairwise.nil (by intro s hs; simp at hs)
    refine ⟨hr.2.1, ?_⟩
    intro s hs
    refine ⟨hr.2.2.1 s hs, ?_⟩
    intro a ha
    rcases hr.2.2.2 s hs a ha with ⟨s0, hs0, _⟩ | ⟨q, hq, haq⟩
    · simp at hs0
    · exact Or.inr ⟨q, hq, haq⟩
  · have h0 : (if Q.1.isEmpty then ([] : GroupedAttachments)
        else [("", sortByNum Q.1)]) = [("", sortByNum Q.1)] := by rw [if_neg hE]
    rw [h0]
    have hsortmem : ∀ a : Attachment, a ∈ sortByNum Q.1 ↔ a ∈ Q.1 :=
      fun a => (List.perm_insertionSort byNum _).mem_iff
    have hr := EB2_sections_fold_spec bySec ([("", sortByNum Q.1)], Q.2)
      (by intro s hs a ha
          simp only [List.mem_singleton] at hs
          subst hs
          exact hQspec.1 a ((hsortmem a).mp ha))
      (List.pairwise_singleton _ _)
      (by intro s hs
          simp only [List.mem_singleton] at hs
          subst hs
          show List.Pairwise (fun a b => a.num < b.num) (sortByNum Q.1)
          apply pairwise_lt_of_le_nodup
          · exact List.sorted_insertionSort byNum _
          · exact (((List.perm_insertionSort byNum Q.1).map Attachment.num).symm).nodup
              hQspec.2.1)
    refine ⟨hr.2.1, ?_⟩
    intro s hs
    refine ⟨hr.2.2.1 s hs, ?_⟩
    intro a ha
    rcases hr.2.2.2 s hs a ha with ⟨s0, hs0, has0⟩ | ⟨q, hq, haq⟩
    · simp only [List.mem_singleton] at hs0
      subst hs0
      exact Or.inl (hQpre a ((hsortmem a).mp has0))
    · exact Or.inr ⟨q, hq, haq⟩

theorem nodup_num_of_pairwise_lt {l : List Attachment}
    (h : List.Pairwise (fun a b => a.num < b.num) l) : (l.map Attachment.num).Nodup :=
  List.pairwise_map.mpr (h.imp (fun hl => Nat.ne_of_lt hl))

/-- C1 amended: dialect B satisfies the uniqueness claim — the sections of
extractEB2's result are pairwise disjoint in their attachment numbers, and no
section repeats a number.  Dialect A guarantees only the per-section half: no
section of extractEB1's result repeats a number, but the same number can
appear in two different sections (see the counterexample). -/
theorem C1_amended_uniqueness (t : String) :
    List.Pairwise disjNums (EB2.extractEB2 t) ∧
    (∀ s ∈ EB2.extractEB2 t, (s.2.map Attachment.num).Nodup) ∧
    (∀ s ∈ EB1.extractEB1 t, (s.2.map Attachment.num).Nodup) := by
  have hfs := EB2_finalize_spec
    ((EB2.runParas 0 EB2.initSt (Rx.paragraphs t.data)).preSectionItems)
    ((EB2.runParas 0 EB2.initSt (Rx.paragraphs t.data)).bySec)
  have heq : EB2.extractEB2 t = EB2.finalize
      ((EB2.runParas 0 EB2.initSt (Rx.paragraphs t.data)).preSectionItems)
      ((EB2.runParas 0 EB2.initSt (Rx.paragraphs t.data)).bySec) := rfl
  refine ⟨?_, ?_, ?_⟩
  · rw [heq]; exact hfs.1
  · intro s hs
    rw [heq] at hs
    exact nodup_num_of_pairwise_lt (hfs.2 s hs).1
  · intro s hs
    have hnd : (JS.akeys (((Rx.paragraphs t.data).foldl (EB1.step 0) EB1.initSt).groups)).Nodup :=
      EB1_run_keys_nodup 0 (Rx.paragraphs t.data) EB1.initSt (by decide)
    have hs2 : (s.1, s.2) ∈
        EB1.finalize (((Rx.paragraphs t.data).foldl (EB1.step 0) EB1.initSt).groups) := hs
    have hitems : s.2 = EB1.dedupeBest ((JS.alookup s.1
        (((Rx.paragraphs t.data).foldl (EB1.step 0) EB1.initSt).groups)).getD []) :=
      EB1_finalize_lookup _ hnd s.1 s.2 hs2
    rw [hitems]
    exact dedupeBest_nums_nodup _

/-- C1 witness: the amended uniqueness facts evaluated at a concrete input,
with the section-membership hypotheses discharged on the first section of
each dialect's output. -/
theorem C1_witness :
    List.Pairwise disjNums (EB2.extractEB2 "II. S\n(1) A.\n(2) B.") ∧
    ((((EB2.extractEB2 "II. S\n(1) A.\n(2) B.").headD ("", [])).2.map Attachment.num).Nodup) ∧
    ((((EB1.extractEB1 "II. S\n(1) A.\n(2) B.").headD ("", [])).2.map Attachment.num).Nodup) := by
  have h := C1_amended_uniqueness "II. S\n(1) A.\n(2) B."
  exact ⟨h.1, h.2.1 _ (by decide), h.2.2 _ (by decide)⟩

/-! ## C3: per-section ordering and nonempty descriptions -/

theorem ensureDot_ne_nil (d : List Char) :
    (if JS.endsWithChar '.' d then d else d ++ ['.']) ≠ [] := by
  by_cases h : JS.endsWithChar '.' d = true
  · rw [if_pos h]
    intro hd
    subst hd
    exact absurd h (by decide)
  · rw [if_neg h]
    simp

theorem EB2_cleanDesc_ne_nil (raw : List Char) : EB2.cleanDesc raw ≠ [] :=
  ensureDot_ne_nil _

theorem EB2_cleanDescStr_ne_empty (raw : List Char) : EB2.cleanDescStr raw ≠ "" := by
  intro h
  have h3 : EB2.cleanDesc raw = [] := congrArg String.data h
  exact EB2_cleanDesc_ne_nil raw h3

theorem mem_foldl_filter_append {α β : Type} (cond : β → Bool) (f : β → α) :
    ∀ (l : List β) (acc : List α) (x : α),
      x ∈ l.foldl (fun acc m => if cond m then acc else acc ++ [f m]) acc →
      x ∈ acc ∨ ∃ m ∈ l, x = f m := by
  intro l
  induction l with
  | nil => intro acc x h; exact Or.inl h
  | cons m rest ih =>
    intro acc x h
    rw [List.foldl_cons] at h
    rcases ih _ x h with h1 | ⟨m2, hm2, hx⟩
    · by_cases hc : cond m = true
      · rw [if_pos hc] at h1; exact Or.inl h1
      · rw [if_neg hc] at h1
        rcases List.mem_append.mp h1 with h2 | h2
        · exact Or.inl h2
        · simp at h2; exact Or.inr ⟨m, List.mem_cons_self _ _, h2⟩
    · exact Or.inr ⟨m2, List.mem_cons_of_mem _ hm2, hx⟩

theorem JS.mem_aset {κ α : Type} [DecidableEq κ] (k : κ) (v : α) :
    ∀ (l : List (κ × α)) (x : κ × α), x ∈ JS.aset k v l → x = (k, v) ∨ x ∈ l := by
  intro l
  induction l with
  | nil =>
    intro x h
    simp [JS.aset] at h
    exact Or.inl h
  | cons p rest ih =>
    intro x h
    obtain ⟨k2, v2⟩ := p
    simp only [JS.aset] at h
    by_cases hk : k2 = k
    · rw [if_pos hk] at h
      rcases List.mem_cons.mp h with h1 | h1
      · refine Or.inl ?_
        rw [h1, hk]
      · exact Or.inr (List.mem_cons_of_mem _ h1)
    · rw [if_neg hk] at h
      rcases List.mem_cons.mp h with h1 | h1
      · exact Or.inr (h1 ▸ List.mem_cons_self _ _)
      · rcases ih x h1 with h2 | h2
        · exact Or.inl h2
        · exact Or.inr (List.mem_cons_of_mem _ h2)

theorem JS.mem_adelete {κ α : Type} [DecidableEq κ] (k : κ) :
    ∀ (l : List (κ × α)) (x : κ × α), x ∈ JS.adelete k l → x ∈ l := by
  intro l
  induction l with
  | nil => intro x h; simp [JS.adelete] at h
  | cons p rest ih =>
    intro x h
    obtain ⟨k2, v2⟩ := p
    simp only [JS.adelete] at h
    by_cases hk : k2 = k
    · rw [if_pos hk] at h
      exact List.mem_cons_of_mem _ h
    · rw [if_neg hk] at h
      rcases List.mem_cons.mp h with h1 | h1
      · exact h1 ▸ List.mem_cons_self _ _
      · exact List.mem_cons_of_mem _ (ih x h1)

theorem JS.alookup_mem {κ α : Type} [DecidableEq κ] (k : κ) (v : α) :
    ∀ l : List (κ × α), JS.alookup k l = some v → (k, v) ∈ l := by
  intro l
  induction l with
  | nil => intro h; simp [JS.alookup] at h
  | cons p rest ih =>
    intro h
    obtain ⟨k2, v2⟩ := p
    simp only [JS.alookup] at h
    by_cases hk : k2 = k
    · rw [if_pos hk] at h
      injection h with hv
      rw [← hk, ← hv]
      exact List.mem_cons_self _ _
    · rw [if_neg hk] at h
      exact List.mem_cons_of_mem _ (ih h)

theorem EB2_seeItem_desc (m : Nat × List Char × List Char × List Char) :
    (EB2.seeItem m).desc ≠ "" :=
  EB2_cleanDescStr_ne_empty _

theorem EB2_embItem_desc (partsAll : List (List Char)) (i : Nat) :
    (EB2.embItem partsAll i).desc ≠ "" :=
  EB2_cleanDescStr_ne_empty _

theorem EB2_seeFound_desc (st : EB2.St) (seeIdx : Nat) (trimmed : List Char) :
    ∀ a ∈ EB2.seeFound st seeIdx trimmed, a.desc ≠ "" := by
  intro a ha
  unfold EB2.seeFound at ha
  rcases mem_foldl_filter_append (fun m => EB2.skipNum st m.1) EB2.seeItem
      (EB2.seeMatchAllFrom seeIdx trimmed) [] a ha with h | ⟨m, _, hx⟩
  · simp at h
  · rw [hx]; exact EB2_seeItem_desc m

theorem EB2_enumItems_desc (st : EB2.St) (trimmed : List Char) (num : Nat)
    (desc0 url0 : List Char) :
    ∀ a ∈ EB2.enumItems st trimmed num desc0 url0, a.desc ≠ "" := by
  intro a ha
  unfold EB2.enumItems at ha
  simp only [List.mem_append, List.mem_singleton] at ha
  rcases ha with ha | ha
  · by_cases he : (Rx.scanPos (Rx.embMatchAt EB2.embP)
        (Rx.stripFinalComma (JS.trim desc0))).isSome = true
    · rw [if_pos he] at ha
      rcases mem_foldl_filter_append
          (fun i => EB2.skipNum st (JS.digitsToNat
            ((Rx.splitEmbedded EB2.embP (Rx.stripFinalComma (JS.trim desc0))).getD i [])))
          (EB2.embItem (Rx.splitEmbedded EB2.embP (Rx.stripFinalComma (JS.trim desc0))))
          ((List.range ((Rx.splitEmbedded EB2.embP
            (Rx.stripFinalComma (JS.trim desc0))).length - 1)).filter (fun i => i % 2 = 1))
          [] a ha with h | ⟨i, _, hx⟩
      · simp at h
      · rw [hx]; exact EB2_embItem_desc _ i
    · rw [if_neg he] at ha
      simp at ha
  · rw [ha]; exact EB2_cleanDescStr_ne_empty _

theorem EB2_enumFound_desc (st : EB2.St) (trimmed : List Char) :
    ∀ a ∈ EB2.enumFound st trimmed, a.desc ≠ "" := by
  intro a ha
  unfold EB2.enumFound at ha
  cases hm : Rx.itemEnumMatch EB2.enumP trimmed with
  | none => rw [hm] at ha; simp at ha
  | some triple =>
    rw [hm] at ha
    obtain ⟨num, desc0, url0⟩ := triple
    have ha2 : a ∈ (if EB2.skipNum st num = true then []
        else EB2.enumItems st trimmed num desc0 url0) := ha
    by_cases hs : EB2.skipNum st num = true
    · rw [if_pos hs] at ha2; simp at ha2
    · rw [if_neg hs] at ha2
      exact EB2_enumItems_desc st trimmed num desc0 url0 a ha2

theorem EB2_foundItems_desc (st : EB2.St) (seeIdx : Nat) (trimmed : List Char) :
    ∀ a ∈ EB2.foundItems st seeIdx trimmed, a.desc ≠ "" := by
  intro a ha
  simp only [EB2.foundItems] at ha
  by_cases hsf : (EB2.seeFound st seeIdx trimmed).isEmpty = true
  · rw [if_pos hsf] at ha
    exact EB2_enumFound_desc st trimmed a ha
  · rw [if_neg hsf] at ha
    exact EB2_seeFound_desc st seeIdx trimmed a ha

theorem EB2_addItem_desc (st : EB2.St) (it : Attachment)
    (h1 : ∀ s ∈ st.bySec, ∀ a ∈ s.2, a.desc ≠ "")
    (h2 : ∀ e ∈ st.preSectionItems, e.2.desc ≠ "")
    (hit : it.desc ≠ "") :
    (∀ s ∈ (EB2.addItem st it).bySec, ∀ a ∈ s.2, a.desc ≠ "") ∧
    (∀ e ∈ (EB2.addItem st it).preSectionItems, e.2.desc ≠ "") := by
  cases hc : st.currentSec with
  | some c =>
    cases hguard : ((JS.alookup it.num st.seenGlobally).isNone
        || (JS.alookup it.num st.preSectionItems).isSome) with
    | true =>
      have hb : (EB2.addItem st it).bySec =
          JS.aset c (((JS.alookup c st.bySec).getD []) ++ [it]) st.bySec := by
        unfold EB2.addItem; simp [hc, hguard]
      have hp : (EB2.addItem st it).preSectionItems =
          JS.adelete it.num st.preSectionItems := by
        unfold EB2.addItem; simp [hc, hguard]
      rw [hb, hp]
      constructor
      · intro s hs a ha
        rcases JS.mem_aset _ _ _ _ hs with hx | hx
        · rw [hx] at ha
          rcases List.mem_append.mp ha with hbm | hbm
          · cases hlv : JS.alookup c st.bySec with
            | none => rw [hlv] at hbm; simp at hbm
            | some l =>
              rw [hlv] at hbm
              exact h1 (c, l) (JS.alookup_mem c l st.bySec hlv) a hbm
          · simp at hbm
            rw [hbm]
            exact hit
        · exact h1 s hx a ha
      · intro e he
        exact h2 e (JS.mem_adelete _ _ _ he)
    | false =>
      have hb : (EB2.addItem st it).bySec = st.bySec := by
        unfold EB2.addItem; simp [hc, hguard]
      have hp : (EB2.addItem st it).preSectionItems = st.preSectionItems := by
        unfold EB2.addItem; simp [hc, hguard]
      rw [hb, hp]
      exact ⟨h1, h2⟩
  | none =>
    cases hg : (JS.alookup it.num st.seenGlobally).isNone with
    | true =>
      have hb : (EB2.addItem st it).bySec = st.bySec := by
        unfold EB2.addItem; simp [hc, hg]
      have hp : (EB2.addItem st it).preSectionItems =
          JS.aset it.num it st.preSectionItems := by
        unfold EB2.addItem; simp [hc, hg]
      rw [hb, hp]
      refine ⟨h1, ?_⟩
      intro e he
      rcases JS.mem_aset _ _ _ _ he with hx | hx
      · rw [hx]
        exact hit
      · exact h2 e hx
    | false =>
      have hb : (EB2.addItem st it).bySec = st.bySec := by
        unfold EB2.addItem; simp [hc, hg]
      have hp : (EB2.addItem st it).preSectionItems = st.preSectionItems := by
        unfold EB2.addItem; simp [hc, hg]
      rw [hb, hp]
      exact ⟨h1, h2⟩

theorem EB2_foldl_addItem_desc :
    ∀ (items : List Attachment) (st : EB2.St),
      (∀ s ∈ st.bySec, ∀ a ∈ s.2, a.desc ≠ "") →
      (∀ e ∈ st.preSectionItems, e.2.desc ≠ "") →
      (∀ a ∈ items, a.desc ≠ "") →
      (∀ s ∈ (items.foldl EB2.addItem st).bySec, ∀ a ∈ s.2, a.desc ≠ "") ∧
      (∀ e ∈ (items.foldl EB2.addItem st).preSectionItems, e.2.desc ≠ "") := by
  intro items
  induction items with
  | nil => intro st h1 h2 _; exact ⟨h1, h2⟩
  | cons it rest ih =>
    intro st h1 h2 hall
    rw [List.foldl_cons]
    have hd := EB2_addItem_desc st it h1 h2 (hall it (List.mem_cons_self _ _))
    exact ih _ hd.1 hd.2 (fun a ha => hall a (List.mem_cons_of_mem _ ha))

theorem EB2_step_desc (seeIdx : Nat) (st : EB2.St) (para : List Char)
    (h1 : ∀ s ∈ st.bySec, ∀ a ∈ s.2, a.desc ≠ "")
    (h2 : ∀ e ∈ st.preSectionItems, e.2.desc ≠ "") :
    (∀ s ∈ (EB2.step seeIdx st para).bySec, ∀ a ∈ s.2, a.desc ≠ "") ∧
    (∀ e ∈ (EB2.step seeIdx st para).preSectionItems, e.2.desc ≠ "") := by
  cases h0 : (JS.trim para).isEmpty with
  | true =>
    have hb : (EB2.step seeIdx st para).bySec = st.bySec := by
      unfold EB2.step; simp [h0]
    have hp : (EB2.step seeIdx st para).preSectionItems = st.preSectionItems := by
      unfold EB2.step; simp [h0]
    rw [hb, hp]
    exact ⟨h1, h2⟩
  | false =>
    cases hsec : (EB2.sectionRx (JS.trim para) && !EB2.hasConclusion (JS.trim para)) with
    | false =>
      have hstep : EB2.step seeIdx st para =
          (EB2.foundItems st seeIdx (JS.trim para)).foldl EB2.addItem st := by
        unfold EB2.step; simp [h0, hsec]
      rw [hstep]
      exact EB2_foldl_addItem_desc _ st h1 h2 (EB2_foundItems_desc st seeIdx (JS.trim para))
    | true =>
      cases htoc : EB2.tocNumTest (JS.trim para) with
      | true =>
        have hb : (EB2.step seeIdx st para).bySec = st.bySec := by
          unfold EB2.step; simp [h0, hsec, htoc]
        have hp : (EB2.step seeIdx st para).preSectionItems = st.preSectionItems := by
          unfold EB2.step; simp [h0, hsec, htoc]
        rw [hb, hp]
        exact ⟨h1, h2⟩
      | false =>
        cases hlk : (JS.alookup (String.mk (EB2.normalizeHeading (JS.trim para)))
            st.bySec).isSome with
        | true =>
          have hb : (EB2.step seeIdx st para).bySec = st.bySec := by
            unfold EB2.step; simp [h0, hsec, htoc, hlk]
          have hp : (EB2.step seeIdx st para).preSectionItems = st.preSectionItems := by
            unfold EB2.step; simp [h0, hsec, htoc, hlk]
          rw [hb, hp]
          exact ⟨h1, h2⟩
        | false =>
          have hb : (EB2.step seeIdx st para).bySec =
              JS.aset (String.mk (EB2.normalizeHeading (JS.trim para))) [] st.bySec := by
            unfold EB2.step; simp [h0, hsec, htoc, hlk]
          have hp : (EB2.step seeIdx st para).preSectionItems = st.preSectionItems := by
            unfold EB2.step; simp [h0, hsec, htoc, hlk]
          rw [hb, hp]
          refine ⟨?_, h2⟩
          intro s hs a ha
          rcases JS.mem_aset _ _ _ _ hs with hx | hx
          · rw [hx] at ha; simp at ha
          · exact h1 s hx a ha

theorem EB2_runParas_desc (seeIdx : Nat) :
    ∀ (paras : List (List Char)) (st : EB2.St),
      (∀ s ∈ st.bySec, ∀ a ∈ s.2, a.desc ≠ "") →
      (∀ e ∈ st.preSectionItems, e.2.desc ≠ "") →
      (∀ s ∈ (EB2.runParas seeIdx st paras).bySec, ∀ a ∈ s.2, a.desc ≠ "") ∧
      (∀ e ∈ (EB2.runParas seeIdx st paras).preSectionItems, e.2.desc ≠ "") := by
  intro paras
  induction paras with
  | nil => intro st h1 h2; exact ⟨h1, h2⟩
  | cons p rest ih =>
    intro st h1 h2
    have hs := EB2_step_desc seeIdx st p h1 h2
    exact ih (EB2.step seeIdx st p) hs.1 hs.2

theorem EB2_extract_desc (t : String) :
    ∀ s ∈ EB2.extractEB2 t, ∀ a ∈ s.2, a.desc ≠ "" := by
  intro s hs a ha
  have hrun := EB2_runParas_desc 0 (Rx.paragraphs t.data) EB2.initSt
    (by intro s hs; simp [EB2.initSt] at hs)
    (by intro e he; simp [EB2.initSt] at he)
  have hfs := EB2_finalize_spec
    ((EB2.runParas 0 EB2.initSt (Rx.paragraphs t.data)).preSectionItems)
    ((EB2.runParas 0 EB2.initSt (Rx.paragraphs t.data)).bySec)
  have heq : EB2.extractEB2 t = EB2.finalize
      ((EB2.runParas 0 EB2.initSt (Rx.paragraphs t.data)).preSectionItems)
      ((EB2.runParas 0 EB2.initSt (Rx.paragraphs t.data)).bySec) := rfl
  rw [heq] at hs
  rcases (hfs.2 s hs).2 a ha with ⟨e, he, hae⟩ | ⟨q, hq, haq⟩
  · rw [hae]; exact hrun.2 e he
  · exact hrun.1 q hq a haq

/-- C3 amended: within every section of either dialect's result the items are
strictly ascending by num (so no section repeats a number), and in dialect B
no stored description is empty.  Dialect A does not guarantee nonempty
descriptions: its cleaner returns "" for an all-punctuation description (see
the counterexample). -/
theorem C3_amended_ordering (t : String) :
    (∀ s ∈ EB1.extractEB1 t, List.Pairwise (fun a b => a.num < b.num) s.2) ∧
    (∀ s ∈ EB2.extractEB2 t, List.Pairwise (fun a b => a.num < b.num) s.2) ∧
    (∀ s ∈ EB2.extractEB2 t, ∀ a ∈ s.2, a.desc ≠ "") := by
  refine ⟨?_, ?_, EB2_extract_desc t⟩
  · intro s hs
    have hnd : (JS.akeys (((Rx.paragraphs t.data).foldl (EB1.step 0) EB1.initSt).groups)).Nodup :=
      EB1_run_keys_nodup 0 (Rx.paragraphs t.data) EB1.initSt (by decide)
    have hs2 : (s.1, s.2) ∈
        EB1.finalize (((Rx.paragraphs t.data).foldl (EB1.step 0) EB1.initSt).groups) := hs
    have hitems := EB1_finalize_lookup _ hnd s.1 s.2 hs2
    rw [hitems]
    exact dedupeBest_strict _
  · intro s hs
    have hfs := EB2_finalize_spec
      ((EB2.runParas 0 EB2.initSt (Rx.paragraphs t.data)).preSectionItems)
      ((EB2.runParas 0 EB2.initSt (Rx.paragraphs t.data)).bySec)
    have heq : EB2.extractEB2 t = EB2.finalize
        ((EB2.runParas 0 EB2.initSt (Rx.paragraphs t.data)).preSectionItems)
        ((EB2.runParas 0 EB2.initSt (Rx.paragraphs t.data)).bySec) := rfl
    rw [heq] at hs
    exact (hfs.2 s hs).1

/-- C3 witness: the amended ordering facts evaluated at a concrete input whose
citations arrive out of order, with the membership hypotheses discharged on
concrete sections and items. -/
theorem C3_witness :
    List.Pairwise (fun a b => a.num < b.num)
      ((EB1.extractEB1 "II. S\n(2) B.\n(1) A.").headD ("", [])).2 ∧
    List.Pairwise (fun a b => a.num < b.num)
      ((EB2.extractEB2 "II. S\n(2) B.\n(1) A.").headD ("", [])).2 ∧
    (Attachment.mk 1 "A.").desc ≠ "" := by
  have h := C3_amended_ordering "II. S\n(2) B.\n(1) A."
  exact ⟨h.1 _ (by decide), h.2.1 _ (by decide),
    h.2.2 ("II. S", [Attachment.mk 1 "A.", Attachment.mk 2 "B."]) (by decide)
      (Attachment.mk 1 "A.") (by decide)⟩

/-! ## C8: the assignment policy of dialect B -/

theorem JS.alookup_not_mem {κ α : Type} [DecidableEq κ] (k : κ) :
    ∀ l : List (κ × α), k ∉ JS.akeys l → JS.alookup k l = none := by
  intro l
  induction l with
  | nil => intro _; rfl
  | cons p rest ih =>
    intro h
    obtain ⟨k2, v2⟩ := p
    simp only [JS.akeys, List.map_cons, List.mem_cons] at h
    push_neg at h
    simp only [JS.alookup]
    rw [if_neg (fun he => h.1 he.symm)]
    exact ih h.2

theorem JS.adelete_keys_sublist {κ α : Type} [DecidableEq κ] (k : κ) :
    ∀ l : List (κ × α), List.Sublist (JS.akeys (JS.adelete k l)) (JS.akeys l) := by
  intro l
  induction l with
  | nil => exact List.nil_sublist _
  | cons p rest ih =>
    obtain ⟨k2, v2⟩ := p
    simp only [JS.adelete]
    by_cases hk : k2 = k
    · rw [if_pos hk]
      exact (List.Sublist.refl _).cons _
    · rw [if_neg hk]
      simp only [JS.akeys, List.map_cons]
      exact ih.cons₂ _

theorem JS.alookup_adelete_self {κ α : Type} [DecidableEq κ] (k : κ) :
    ∀ l : List (κ × α), (JS.akeys l).Nodup → JS.alookup k (JS.adelete k l) = none := by
  intro l
  induction l with
  | nil => intro _; rfl
  | cons p rest ih =>
    intro hnd
    obtain ⟨k2, v2⟩ := p
    simp only [JS.akeys, List.map_cons, List.nodup_cons] at hnd
    simp only [JS.adelete]
    by_cases hk : k2 = k
    · rw [if_pos hk]
      apply JS.alookup_not_mem
      rw [← hk]
      exact hnd.1
    · rw [if_neg hk]
      simp only [JS.alookup]
      rw [if_neg hk]
      exact ih hnd.2

theorem assignInv_of_eq {st2 : EB2.St} (st : EB2.St)
    (hsg : st2.seenGlobally = st.seenGlobally)
    (hp : st2.preSectionItems = st.preSectionItems)
    (hinv : assignInv st) : assignInv st2 := by
  unfold assignInv at hinv ⊢
  rw [hsg, hp]
  exact hinv

theorem EB2_addItem_assign (st : EB2.St) (it : Attachment) (hinv : assignInv st) :
    assignInv (EB2.addItem st it) ∧
    ∀ n g, JS.alookup n st.seenGlobally = some g →
      JS.alookup n (EB2.addItem st it).seenGlobally = some g := by
  obtain ⟨hnd, hdisj⟩ := hinv
  cases hc : st.currentSec with
  | some c =>
    cases hguard : ((JS.alookup it.num st.seenGlobally).isNone
        || (JS.alookup it.num st.preSectionItems).isSome) with
    | true =>
      have hseennone : JS.alookup it.num st.seenGlobally = none := by
        cases hsg0 : JS.alookup it.num st.seenGlobally with
        | none => rfl
        | some g =>
          have hpn := hdisj it.num g hsg0
          rw [hsg0, hpn] at hguard
          simp at hguard
      have hp : (EB2.addItem st it).preSectionItems =
          JS.adelete it.num st.preSectionItems := by
        unfold EB2.addItem; simp [hc, hguard]
      have hsg : (EB2.addItem st it).seenGlobally =
          JS.aset it.num c st.seenGlobally := by
        unfold EB2.addItem; simp [hc, hguard]
      constructor
      · constructor
        · rw [hp]
          exact (JS.adelete_keys_sublist it.num st.preSectionItems).nodup hnd
        · intro n g hg
          rw [hp]
          rw [hsg] at hg
          by_cases hne : n = it.num
          · subst hne
            exact JS.alookup_adelete_self it.num st.preSectionItems hnd
          · rw [JS.alookup_aset_ne it.num n c hne st.seenGlobally] at hg
            rw [JS.alookup_adelete_ne it.num n hne st.preSectionItems]
            exact hdisj n g hg
      · intro n g hg
        rw [hsg]
        have hne : n ≠ it.num := by
          intro he
          rw [he, hseennone] at hg
          cases hg
        rw [JS.alookup_aset_ne it.num n c hne st.seenGlobally]
        exact hg
    | false =>
      have hstep : EB2.addItem st it = st := by unfold EB2.addItem; simp [hc, hguard]
      rw [hstep]
      exact ⟨⟨hnd, hdisj⟩, fun n g hg => hg⟩
  | none =>
    cases hg0 : (JS.alookup it.num st.seenGlobally).isNone with
    | true =>
      have hseennone : JS.alookup it.num st.seenGlobally = none := by
        cases hsg0 : JS.alookup it.num st.seenGlobally with
        | none => rfl
        | some g => rw [hsg0] at hg0; simp at hg0
      have hp : (EB2.addItem st it).preSectionItems =
          JS.aset it.num it st.preSectionItems := by
        unfold EB2.addItem; simp [hc, hg0]
      have hsg : (EB2.addItem st it).seenGlobally = st.seenGlobally := by
        unfold EB2.addItem; simp [hc, hg0]
      refine ⟨⟨?_, ?_⟩, ?_⟩
      · rw [hp]
        exact JS.nodup_akeys_aset it.num it st.preSectionItems hnd
      · intro n g hg
        rw [hsg] at hg
        rw [hp]
        by_cases hne : n = it.num
        · rw [hne, hseennone] at hg
          cases hg
        · rw [JS.alookup_aset_ne it.num n it hne st.preSectionItems]
          exact hdisj n g hg
      · intro n g hg
        rw [hsg]
        exact hg
    | false =>
      have hstep : EB2.addItem st it = st := by unfold EB2.addItem; simp [hc, hg0]
      rw [hstep]
      exact ⟨⟨hnd, hdisj⟩, fun n g hg => hg⟩

theorem EB2_foldl_addItem_assign :
    ∀ (items : List Attachment) (st : EB2.St), assignInv st →
      assignInv (items.foldl EB2.addItem st) ∧
      ∀ n g, JS.alookup n st.seenGlobally = some g →
        JS.alookup n ((items.foldl EB2.addItem st).seenGlobally) = some g := by
  intro items
  induction items with
  | nil => intro st hinv; exact ⟨hinv, fun n g hg => hg⟩
  | cons it rest ih =>
    intro st hinv
    rw [List.foldl_cons]
    have h1 := EB2_addItem_assign st it hinv
    have h2 := ih (EB2.addItem st it) h1.1
    exact ⟨h2.1, fun n g hg => h2.2 n g (h1.2 n g hg)⟩

theorem EB2_step_assign (seeIdx : Nat) (st : EB2.St) (para : List Char)
    (hinv : assignInv st) :
    assignInv (EB2.step seeIdx st para) ∧
    ∀ n g, JS.alookup n st.seenGlobally = some g →
      JS.alookup n (EB2.step seeIdx st para).seenGlobally = some g := by
  cases h0 : (JS.trim para).isEmpty with
  | true =>
    have hsg : (EB2.step seeIdx st para).seenGlobally = st.seenGlobally := by
      unfold EB2.step; simp [h0]
    have hp : (EB2.step seeIdx st para).preSectionItems = st.preSectionItems := by
      unfold EB2.step; simp [h0]
    exact ⟨assignInv_of_eq st hsg hp hinv, fun n g hg => by rw [hsg]; exact hg⟩
  | false =>
    cases hsec : (EB2.sectionRx (JS.trim para) && !EB2.hasConclusion (JS.trim para)) with
    | true =>
      have hsg : (EB2.step seeIdx st para).seenGlobally = st.seenGlobally := by
        unfold EB2.step
        simp only [h0, Bool.false_eq_true, if_false, hsec, if_true]
        split
        · rfl
        · split <;> rfl
      have hp : (EB2.step seeIdx st para).preSectionItems = st.preSectionItems := by
        unfold EB2.step
        simp only [h0, Bool.false_eq_true, if_false, hsec, if_true]
        split
        · rfl
        · split <;> rfl
      exact ⟨assignInv_of_eq st hsg hp hinv, fun n g hg => by rw [hsg]; exact hg⟩
    | false =>
      have hstep : EB2.step seeIdx st para =
          (EB2.foundItems st seeIdx (JS.trim para)).foldl EB2.addItem st := by
        unfold EB2.step; simp [h0, hsec]
      rw [hstep]
      exact EB2_foldl_addItem_assign _ st hinv

theorem EB2_runParas_assign (seeIdx : Nat) :
    ∀ (paras : List (List Char)) (st : EB2.St), assignInv st →
      assignInv (EB2.runParas seeIdx st paras) ∧
      ∀ n g, JS.alookup n st.seenGlobally = some g →
        JS.alookup n (EB2.runParas seeIdx st paras).seenGlobally = some g := by
  intro paras
  induction paras with
  | nil => intro st hinv; exact ⟨hinv, fun n g hg => hg⟩
  | cons p rest ih =>
    intro st hinv
    have h1 := EB2_step_assign seeIdx st p hinv
    have h2 := ih (EB2.step seeIdx st p) h1.1
    exact ⟨h2.1, fun n g hg => h2.2 n g (h1.2 n g hg)⟩

/-- C8: the assignment policy of extractEB2's item loop (lines 244–261).
(1) Before any header, an unseen number is buffered in preSectionItems.
(2) Inside a section, a pre-buffered number migrates: it is deleted from the
pre-section buffer, appended to the current section's list, and its number is
recorded as owned by that section.  (3) Inside a section, a number already
assigned to some section and not pre-buffered is dropped: the state does not
change.  (4) Never reassigned: across any further paragraphs, under the loop
invariant that an assigned number is not also pre-buffered, an existing
section assignment of seenGlobally persists unchanged. -/
theorem C8_assignment_policy :
    (∀ (st : EB2.St) (it : Attachment),
      st.currentSec = none → JS.alookup it.num st.seenGlobally = none →
      EB2.addItem st it = EB2.St.mk st.bySec st.seenInSec st.seenGlobally
        (JS.aset it.num it st.preSectionItems) none st.firstSection) ∧
    (∀ (st : EB2.St) (it : Attachment) (c : String) (p : Attachment),
      st.currentSec = some c → JS.alookup it.num st.preSectionItems = some p →
      (EB2.addItem st it).preSectionItems = JS.adelete it.num st.preSectionItems ∧
      JS.alookup c (EB2.addItem st it).bySec =
        some (((JS.alookup c st.bySec).getD []) ++ [it]) ∧
      JS.alookup it.num (EB2.addItem st it).seenGlobally = some c) ∧
    (∀ (st : EB2.St) (it : Attachment) (c g : String),
      st.currentSec = some c → JS.alookup it.num st.seenGlobally = some g →
      JS.alookup it.num st.preSectionItems = none →
      EB2.addItem st it = st) ∧
    (∀ (seeIdx : Nat) (paras : List (List Char)) (st : EB2.St) (n : Nat) (g : String),
      assignInv st → JS.alookup n st.seenGlobally = some g →
      JS.alookup n (EB2.runParas seeIdx st paras).seenGlobally = some g) := by
  refine ⟨?_, ?_, ?_, ?_⟩
  · intro st it hc hg
    have hg0 : (JS.alookup it.num st.seenGlobally).isNone = true := by rw [hg]; rfl
    unfold EB2.addItem
    simp [hc, hg0]
  · intro st it c p hc hp
    have hguard : ((JS.alookup it.num st.seenGlobally).isNone
        || (JS.alookup it.num st.preSectionItems).isSome) = true := by
      rw [hp]; simp
    have hpre : (EB2.addItem st it).preSectionItems =
        JS.adelete it.num st.preSectionItems := by
      unfold EB2.addItem; simp [hc, hguard]
    have hby : (EB2.addItem st it).bySec =
        JS.aset c (((JS.alookup c st.bySec).getD []) ++ [it]) st.bySec := by
      unfold EB2.addItem; simp [hc, hguard]
    have hsg : (EB2.addItem st it).seenGlobally =
        JS.aset it.num c st.seenGlobally := by
      unfold EB2.addItem; simp [hc, hguard]
    refine ⟨hpre, ?_, ?_⟩
    · rw [hby]
      exact JS.alookup_aset_self c _ st.bySec
    · rw [hsg]
      exact JS.alookup_aset_self it.num c st.seenGlobally
  · intro st it c g hc hg hp
    have hguard : ((JS.alookup it.num st.seenGlobally).isNone
        || (JS.alookup it.num st.preSectionItems).isSome) = false := by
      rw [hg, hp]; rfl
    unfold EB2.addItem
    simp [hc, hguard]
  · intro seeIdx paras st n g hinv hg
    exact (EB2_runParas_assign seeIdx paras st hinv).2 n g hg

/-- C8 witness: the four assignment-policy facts applied at concrete states —
pre-buffering from the initial state, migration of a pre-buffered number into
a section, dropping a repeat of an assigned number in a different section,
and persistence of an assignment across a further paragraph. -/
theorem C8_witness :
    (EB2.addItem EB2.initSt (Attachment.mk 3 "X.") =
      EB2.St.mk [] [] [] [(3, Attachment.mk 3 "X.")] none none) ∧
    ((EB2.addItem (EB2.St.mk [("S", [])] [("S", [])] [] [(3, Attachment.mk 3 "X.")]
        (some "S") (some "S")) (Attachment.mk 3 "X.")).preSectionItems =
        JS.adelete 3 [(3, Attachment.mk 3 "X.")] ∧
      JS.alookup "S" (EB2.addItem (EB2.St.mk [("S", [])] [("S", [])] []
        [(3, Attachment.mk 3 "X.")] (some "S") (some "S"))
        (Attachment.mk 3 "X.")).bySec = some [Attachment.mk 3 "X."] ∧
      JS.alookup 3 (EB2.addItem (EB2.St.mk [("S", [])] [("S", [])] []
        [(3, Attachment.mk 3 "X.")] (some "S") (some "S"))
        (Attachment.mk 3 "X.")).seenGlobally = some "S") ∧
    (EB2.addItem (EB2.St.mk [("S", [Attachment.mk 3 "X."])] [("S", [3])] [(3, "S")] []
        (some "T") (some "S")) (Attachment.mk 3 "Y.") =
      EB2.St.mk [("S", [Attachment.mk 3 "X."])] [("S", [3])] [(3, "S")] []
        (some "T") (some "S")) ∧
    JS.alookup 3 (EB2.runParas 0 (EB2.St.mk [("S", [Attachment.mk 3 "X."])] [("S", [3])]
        [(3, "S")] [] (some "T") (some "S")) [("(3) Z".data)]).seenGlobally = some "S" := by
  refine ⟨?_, ?_, ?_, ?_⟩
  · exact C8_assignment_policy.1 EB2.initSt (Attachment.mk 3 "X.") rfl rfl
  · exact C8_assignment_policy.2.1 (EB2.St.mk [("S", [])] [("S", [])] []
      [(3, Attachment.mk 3 "X.")] (some "S") (some "S")) (Attachment.mk 3 "X.") "S"
      (Attachment.mk 3 "X.") rfl (by decide)
  · exact C8_assignment_policy.2.2.1 (EB2.St.mk [("S", [Attachment.mk 3 "X."])] [("S", [3])]
      [(3, "S")] [] (some "T") (some "S")) (Attachment.mk 3 "Y.") "T" "S" rfl (by decide) rfl
  · exact C8_assignment_policy.2.2.2 0 [("(3) Z".data)]
      (EB2.St.mk [("S", [Attachment.mk 3 "X."])] [("S", [3])] [(3, "S")] []
        (some "T") (some "S")) 3 "S" ⟨by decide, fun n g _ => rfl⟩ (by decide)

/-! ## C7: section ordering of the legacy dialect-B module -/

theorem secLe_total (a b : String × List Attachment) : EB2L.secLe a b ∨ EB2L.secLe b a := by
  unfold EB2L.secLe EB2L.sectionCmp
  by_cases ha : a.1 = ""
  · left; simp [ha]
  · by_cases hb : b.1 = ""
    · right; simp [hb]
    · rw [if_neg ha, if_neg hb, if_neg hb, if_neg ha]
      cases hra : EB2L.extractRomanNumeral a.1 with
      | some x =>
        cases hrb : EB2L.extractRomanNumeral b.1 with
        | some y => simp only []; omega
        | none => left; simp
      | none =>
        cases hrb : EB2L.extractRomanNumeral b.1 with
        | some y => right; simp
        | none =>
          by_cases hab : a.1 = b.1
          · left; simp [hab]
          · have hba : ¬ b.1 = a.1 := fun h => hab h.symm
            rcases lt_or_gt_of_ne (fun h => hab h) with hlt | hgt
            · left
              simp only []
              rw [if_neg hab, if_pos hlt]
              decide
            · right
              simp only []
              rw [if_neg hba, if_pos hgt]
              decide

theorem secLe_trans (a b c : String × List Attachment)
    (h1 : EB2L.secLe a b) (h2 : EB2L.secLe b c) : EB2L.secLe a c := by
  unfold EB2L.secLe EB2L.sectionCmp at h1 h2 ⊢
  by_cases ha : a.1 = ""
  · simp [ha]
  · rw [if_neg ha] at h1 ⊢
    by_cases hb : b.1 = ""
    · rw [if_pos hb] at h1
      norm_num at h1
    · rw [if_neg hb] at h1 h2
      by_cases hc : c.1 = ""
      · rw [if_pos hc] at h2
        norm_num at h2
      · rw [if_neg hc] at h2 ⊢
        cases hra : EB2L.extractRomanNumeral a.1 with
        | some x =>
          cases hrc : EB2L.extractRomanNumeral c.1 with
          | none => simp [hra, hrc]
          | some z =>
            cases hrb : EB2L.extractRomanNumeral b.1 with
            | none =>
              rw [hrb, hrc] at h2
              norm_num at h2
            | some y =>
              rw [hra, hrb] at h1
              rw [hrb, hrc] at h2
              simp only [] at h1 h2 ⊢
              omega
        | none =>
          cases hrb : EB2L.extractRomanNumeral b.1 with
          | some y =>
            rw [hra, hrb] at h1
            norm_num at h1
          | none =>
            cases hrc : EB2L.extractRomanNumeral c.1 with
            | some z =>
              rw [hrb, hrc] at h2
              norm_num at h2
            | none =>
              rw [hra, hrb] at h1
              rw [hrb, hrc] at h2
              simp only [] at h1 h2 ⊢
              by_cases hab : a.1 = b.1
              · rw [hab]
                exact h2
              · rw [if_neg hab] at h1
                by_cases hab2 : a.1 < b.1
                · by_cases hbc : b.1 = c.1
                  · rw [← hbc]
                    rw [if_neg hab, if_pos hab2]
                    decide
                  · rw [if_neg hbc] at h2
                    by_cases hbc2 : b.1 < c.1
                    · have hac : a.1 < c.1 := lt_trans hab2 hbc2
                      have hne : ¬ a.1 = c.1 := ne_of_lt hac
                      rw [if_neg hne, if_pos hac]
                      decide
                    · rw [if_neg hbc2] at h2
                      norm_num at h2
                · rw [if_neg hab2] at h1
                  norm_num at h1

/-- C7 amended: the route-imported dialect-B extractor does not order sections
(see the counterexample: document order is kept and pronoun normalization
rewrites the later heading).  The legacy cover-sheet module implements the
claimed ordering: its output is sorted by the section comparator, under which
the pre-section bucket "" precedes everything, Roman-numeraled headings
compare by the integer value of their leading numeral, a numeraled heading
precedes every non-numeraled one, and non-numeraled headings compare
alphabetically; on the claim's own example the legacy module lists
"I. Introduction" before "II. Extraordinary Ability". -/
theorem C7_amended_section_order :
    (∀ t : String, List.Pairwise EB2L.secLe (EB2L.extractEB2 t)) ∧
    EB2L.extractEB2
        ("II. Extraordinary Ability\nAttachment 1 - A.\nI. Introduction\nAttachment 2 - B.") =
      [("I. Introduction", [Attachment.mk 2 "B."]),
       ("II. Extraordinary Ability", [Attachment.mk 1 "A."])] ∧
    (∀ s : String, EB2L.sectionCmp "" s ≤ 0) ∧
    (∀ a b : String, a ≠ "" → b ≠ "" → ∀ x y : Int,
      EB2L.extractRomanNumeral a = some x → EB2L.extractRomanNumeral b = some y →
      (EB2L.sectionCmp a b ≤ 0 ↔ x ≤ y)) ∧
    (∀ a b : String, a ≠ "" → b ≠ "" → ∀ x : Int,
      EB2L.extractRomanNumeral a = some x → EB2L.extractRomanNumeral b = none →
      EB2L.sectionCmp a b < 0) ∧
    (∀ a b : String, a ≠ "" → b ≠ "" →
      EB2L.extractRomanNumeral a = none → EB2L.extractRomanNumeral b = none →
      (EB2L.sectionCmp a b ≤ 0 ↔ a ≤ b)) := by
  refine ⟨?_, by decide, ?_, ?_, ?_, ?_⟩
  · intro t
    haveI : IsTotal (String × List Attachment) EB2L.secLe := ⟨secLe_total⟩
    haveI : IsTrans (String × List Attachment) EB2L.secLe := ⟨secLe_trans⟩
    exact List.sorted_insertionSort EB2L.secLe _
  · intro s
    unfold EB2L.sectionCmp
    simp
  · intro a b ha hb x y hx hy
    unfold EB2L.sectionCmp
    rw [if_neg ha, if_neg hb, hx, hy]
    simp only []
    omega
  · intro a b ha hb x hx hy
    unfold EB2L.sectionCmp
    rw [if_neg ha, if_neg hb, hx, hy]
    simp only []
    decide
  · intro a b ha hb hx hy
    unfold EB2L.sectionCmp
    rw [if_neg ha, if_neg hb, hx, hy]
    simp only []
    by_cases hab : a = b
    · rw [if_pos hab, hab]
      simp
    · rw [if_neg hab]
      by_cases hlt : a < b
      · rw [if_pos hlt]
        constructor
        · intro _; exact le_of_lt hlt
        · intro _; decide
      · rw [if_neg hlt]
        constructor
        · intro h; norm_num at h
        · intro h
          rcases lt_or_eq_of_le h with h2 | h2
          · exact absurd h2 hlt
          · exact absurd h2 hab

/-- C7 witness: the amended ordering facts evaluated at a concrete input text
and at concrete section names for each comparator case. -/
theorem C7_witness :
    List.Pairwise EB2L.secLe (EB2L.extractEB2
      ("II. Extraordinary Ability\nAttachment 1 - A.\nI. Introduction\nAttachment 2 - B.")) ∧
    EB2L.sectionCmp "" ("II. X") ≤ 0 ∧
    (EB2L.sectionCmp ("I. A") ("II. B") ≤ 0 ↔ (1 : Int) ≤ 2) ∧
    EB2L.sectionCmp ("I. A") ("References") < 0 ∧
    (EB2L.sectionCmp ("Apple") ("Banana") ≤ 0 ↔ ("Apple" : String) ≤ ("Banana" : String)) := by
  refine ⟨C7_amended_section_order.1 _, C7_amended_section_order.2.2.1 ("II. X"),
    C7_amended_section_order.2.2.2.1 ("I. A") ("II. B") (by decide) (by decide) 1 2
      (by decide) (by decide),
    C7_amended_section_order.2.2.2.2.1 ("I. A") ("References") (by decide) (by decide) 1
      (by decide) (by decide),
    C7_amended_section_order.2.2.2.2.2 ("Apple") ("Banana") (by decide) (by decide)
      (by decide) (by decide)⟩
